import Mathlib

/-!
# Verification of the cross-file structural analysis engine

Shallow embedding of the cross-file analysis subsystem of the repository
(`src/modules/cross-file/circular-deps.js`, `src/modules/cross-file/unused-exports.js`,
`src/modules/cross-file/index.js`, and the `analyzeProject` entry point of `src/index.js`),
together with proofs about the embedded definitions.

Modelling conventions:
* JavaScript strings are Lean `String`s; arrays are `List`s; `Map`/`Set` (which iterate
  in insertion order in JS) are association lists / lists built with membership-guarded
  append, preserving insertion order.
* The acorn parser and the per-line regular expressions of the fallback scanners are
  external library behaviour; they are embedded as *views* of the opaque source text:
  a `Code` value carries the parse result (`Option EsNode`, `none` = the parse throws)
  and the per-line regex captures.  The two Python dependency regexes are implemented
  concretely (they are load-bearing for the resolution-boundary claim).
* Node's `path` module (posix flavour) is implemented concretely below.
* String primitives are implemented over `List Char` so that every definition
  evaluates by kernel reduction (`decide`).
-/

namespace CodeMaester

/-! ## String primitives (kernel-reducible) -/

/-- `s.startsWith pre`. -/
def strStartsWith (s pre : String) : Bool := pre.data.isPrefixOf s.data

/-- `s.endsWith suf`. -/
def strEndsWith (s suf : String) : Bool := suf.data.isSuffixOf s.data

/-- `s.dropRight n` (drop the last `n` characters). -/
def strDropRight (s : String) (n : Nat) : String := ⟨s.data.take (s.data.length - n)⟩

/-- Split a character list at every occurrence of the character `sep`. -/
def splitCharsAux (sep : Char) : List Char → List Char → List (List Char)
  | [], acc => [acc.reverse]
  | c :: rest, acc =>
    if c = sep then acc.reverse :: splitCharsAux sep rest []
    else splitCharsAux sep rest (c :: acc)

/-- `s.split(sep)` for a one-character separator (as in `String.splitOn`). -/
def splitOnChar (sep : Char) (s : String) : List String :=
  (splitCharsAux sep s.data []).map List.asString

/-- Join a list of strings with a separator (as in `String.intercalate` /
JavaScript `Array.prototype.join`). -/
def joinSep (sep : String) : List String → String
  | [] => ""
  | [a] => a
  | a :: rest => a ++ sep ++ joinSep sep rest

/-- `s.trim()`: strip leading and trailing whitespace. -/
def strTrim (s : String) : String :=
  ⟨((s.data.dropWhile Char.isWhitespace).reverse.dropWhile Char.isWhitespace).reverse⟩

/-- Containment of one character list inside another. -/
def infixOfChars (sub : List Char) : List Char → Bool
  | [] => sub.isEmpty
  | c :: rest => sub.isPrefixOf (c :: rest) || infixOfChars sub rest

/-- `s.includes(sub)`: substring containment. -/
def strContains (s sub : String) : Bool := infixOfChars sub.data s.data

example : strStartsWith "./b" "." = true := by decide
example : splitOnChar '/' "/a//b" = ["", "a", "", "b"] := by decide
example : strTrim "  x y " = "x y" := by decide
example : strContains "abc def" "c d" = true := by decide
example : joinSep "|" ["a", "b"] = "a|b" := by decide

/-! ## Node `path` module (posix) -/

/-- One component-fold step of posix path normalization: `..` pops the last
component unless the accumulator is empty (or ends in `..`) in a relative path;
`.` and empty components have been filtered out by the caller. -/
def normStep (isAbs : Bool) (acc : List String) (c : String) : List String :=
  if c = ".." then
    match acc.getLast? with
    | some last => if last = ".." then acc ++ [c] else acc.dropLast
    | none => if isAbs then acc else [c]
  else acc ++ [c]

/-- `path.normalize` (posix): collapse `.`, `..` and repeated separators.
Trailing-separator preservation is not modelled (no input in this development
carries a trailing separator). -/
def normalizePath (p : String) : String :=
  if p = "" then "." else
  let isAbs := strStartsWith p "/"
  let comps := (splitOnChar '/' p).filter (fun c => c ≠ "" && c ≠ ".")
  let comps := comps.foldl (normStep isAbs) []
  if isAbs then
    "/" ++ joinSep "/" comps
  else if comps = [] then "." else joinSep "/" comps

/-- `path.dirname` (posix). -/
def dirname (p : String) : String :=
  let comps := splitOnChar '/' p
  match comps with
  | [] => "."
  | [_] => "."
  | _ =>
    let front := comps.dropLast
    if front.all (· = "") then "/" else joinSep "/" front

/-- `path.basename` (posix). -/
def basename (p : String) : String :=
  match (splitOnChar '/' p).getLast? with
  | some b => b
  | none => p

/-- `path.resolve(dir, dep)` for the call sites in this subsystem: `dir` is the
directory of an absolute file path.  (Node would consult the working directory
when both arguments are relative; no call site does that.) -/
def resolvePath (dir dep : String) : String :=
  if strStartsWith dep "/" then normalizePath dep
  else normalizePath (dir ++ "/" ++ dep)

/-- `s.replace(/\.(js|ts|jsx|tsx|py)$/, "")`: strip one known source extension
from the end of the string. -/
def stripSrcExt (s : String) : String :=
  if strEndsWith s ".jsx" then strDropRight s 4
  else if strEndsWith s ".tsx" then strDropRight s 4
  else if strEndsWith s ".js" then strDropRight s 3
  else if strEndsWith s ".ts" then strDropRight s 3
  else if strEndsWith s ".py" then strDropRight s 3
  else s

example : normalizePath "/proj/./a.js" = "/proj/a.js" := by decide
example : normalizePath "/proj/../b" = "/b" := by decide
example : normalizePath "./missing" = "missing" := by decide
example : normalizePath "a/../../b" = "../b" := by decide
example : resolvePath "/proj" "./b.js" = "/proj/b.js" := by decide
example : resolvePath "/proj/sub" "../b.js" = "/proj/b.js" := by decide
example : dirname "/proj/a.js" = "/proj" := by decide
example : dirname "/a.js" = "/" := by decide
example : basename "/proj/a.js" = "a.js" := by decide
example : stripSrcExt "/p/a.jsx" = "/p/a" := by decide
example : stripSrcExt "/p/a.js" = "/p/a" := by decide

/-! ## Character classes and tokenized splitting used by the fallback scanners -/

/-- `\w` (the regexes only use ASCII). -/
def isWordChar (c : Char) : Bool := c.isAlphanum || c = '_'

/-- A `\w` or `.` character (the class `[\w.]`). -/
def isWordDot (c : Char) : Bool := isWordChar c || c = '.'

/-- `\s` (modelled as whitespace; the analysed sources are ASCII). -/
def isWs (c : Char) : Bool := c.isWhitespace

/-- `.split(/\s+as\s+/)` scan: fuel-indexed so the definition is structural
(fuel is instantiated with the length of the character list, which always
suffices since each step consumes at least one character). -/
def asSplitAux : Nat → List Char → List Char → List (List Char)
  | 0, acc, rest => [acc.reverse ++ rest]
  | _ + 1, acc, [] => [acc.reverse]
  | fuel + 1, acc, c :: rest =>
    if isWs c then
      match (c :: rest).dropWhile isWs with
      | 'a' :: 's' :: d :: rest2 =>
        if isWs d then acc.reverse :: asSplitAux fuel [] ((d :: rest2).dropWhile isWs)
        else asSplitAux fuel (c :: acc) rest
      | _ => asSplitAux fuel (c :: acc) rest
    else asSplitAux fuel (c :: acc) rest

/-- `s.split(/\s+as\s+/)`. -/
def asSplit (s : String) : List String :=
  (asSplitAux s.data.length [] s.data).map List.asString

/-- `s.split(/\s+as\s+/).pop()`: the last segment. -/
def lastAsSegment (s : String) : String := ((asSplit s).getLast?).getD ""

/-- `s.split(/\s+as\s+/).shift()`: the first segment. -/
def firstAsSegment (s : String) : String := ((asSplit s).head?).getD ""

/-- `s.split(/\s*:\s*/).shift()` applied to an already-trimmed string:
everything before the first `:`, with surrounding whitespace removed. -/
def firstColonSegment (s : String) : String :=
  strTrim ⟨s.data.takeWhile (· ≠ ':')⟩

/-- JS `replace` with the global single-or-double-quote class: remove every
quote character. -/
def stripQuotes (s : String) : String :=
  ⟨s.data.filter (fun c => c ≠ '\x27' && c ≠ '"')⟩

example : asSplit "foo as bar" = ["foo", "bar"] := by decide
example : asSplit "foo" = ["foo"] := by decide
example : lastAsSegment "a as b as c" = "c" := by decide
example : firstAsSegment "foo as bar" = "foo" := by decide
example : firstColonSegment "foo : bar" = "foo" := by decide
example : stripQuotes "\"b\", c" = "b, c" := by decide

/-! ## The acorn AST view

The walkers in `circular-deps.js` and `unused-exports.js` inspect only a handful
of acorn node shapes.  `EsNode` models exactly those shapes: each constructor
carries the fields the walkers read, plus the list of child subtrees that the
generic `for key in node` recursion descends into.  Identifier names coming from
the parser are never empty, so JavaScript truthiness tests on `.name` fields are
modelled as `Option` presence; module-source strings can legitimately be empty
(`import x from ""` parses), so truthiness on `.value` of a source literal keeps
an explicit `≠ ""` test. -/

/-- The binding pattern of a `VariableDeclarator` (`parent.id` in
`extractImports`): an `Identifier`, an `ObjectPattern` (with `prop.key.name`
for each property, `none` when absent), or any other pattern. -/
inductive BindPattern where
  | identPat (name : Option String)
  | objPattern (props : List (Option String))
  | otherPat
deriving Repr, DecidableEq

/-- The `declaration` field of an `ExportNamedDeclaration`: function/class
declarations carry `id.name` when the `id` is present; a variable declaration
carries `decl.id.name` for each declarator. -/
inductive EsDecl where
  | funcDecl (id : Option String)
  | classDecl (id : Option String)
  | varDecl (ids : List (Option String))
  | otherDecl
deriving Repr, DecidableEq

/-- One specifier of an `ImportDeclaration`: `spec.imported.name` and
`spec.local.name`, each possibly absent. -/
structure ImportSpecifier where
  imported : Option String := none
  localBinding : Option String := none
deriving Repr, DecidableEq

/-- An acorn AST node, restricted to the shapes the three walkers test for.
`line` is `node.loc.start.line`.  `callRequire` is a `CallExpression` whose
`callee.name` is `"require"`; `arg` is the `value` of `arguments[0]` when that
argument exists and is a `Literal` (string literals only: a non-string literal
argument would crash the later `startsWith` call and does not occur). -/
inductive EsNode where
  | importDecl (source : Option String) (specifiers : List ImportSpecifier)
      (children : List EsNode)
  | exportNamed (line : Nat) (decl : Option EsDecl) (specifiers : List (Option String))
      (source : Option String) (children : List EsNode)
  | exportAll (source : Option String) (children : List EsNode)
  | exportDefault (line : Nat) (idName : Option String) (nameField : Option String)
      (children : List EsNode)
  | callRequire (arg : Option String) (children : List EsNode)
  | varDeclarator (id : BindPattern) (children : List EsNode)
  | otherNode (children : List EsNode)

/-- The `node.source && node.source.value` truthiness test: a present,
non-empty source string. -/
def truthySrc : Option String → List String
  | some s => if s = "" then [] else [s]
  | none => []

/-- Turn an optional name into a zero/one element list. -/
def optList : Option String → List String
  | some s => [s]
  | none => []

mutual

/-- The AST walk of `extractDependencies` (`circular-deps.js` lines 28-64):
collect `import ... from`, `require("...")`, `export ... from` and
`export * from` module strings in pre-order. -/
def walkDeps : EsNode → List String
  | .importDecl source _ children => truthySrc source ++ walkDepsList children
  | .exportNamed _ _ _ source children => truthySrc source ++ walkDepsList children
  | .exportAll source children => truthySrc source ++ walkDepsList children
  | .exportDefault _ _ _ children => walkDepsList children
  | .callRequire arg children => optList arg ++ walkDepsList children
  | .varDeclarator _ children => walkDepsList children
  | .otherNode children => walkDepsList children

def walkDepsList : List EsNode → List String
  | [] => []
  | n :: rest => walkDeps n ++ walkDepsList rest

end

/-- One export record as produced by `extractExports` in `unused-exports.js`:
`{name, line, type, isDefault}` (`kind` models the JS field `type`). -/
structure ExpRec where
  name : String
  line : Nat
  kind : String
  isDefault : Bool := false
deriving Repr, DecidableEq

/-- The export records contributed by a single AST node in the walk of
`extractExports` (`unused-exports.js` lines 309-364): named declaration
exports, export-specifier lists, and default exports (whose recorded name is
`declaration.id?.name || declaration.name || "default"`). -/
def exportsOfNode : EsNode → List ExpRec
  | .exportNamed line decl specifiers _ _ =>
    (match decl with
     | some (.funcDecl (some name)) => [⟨name, line, "function", false⟩]
     | some (.classDecl (some name)) => [⟨name, line, "class", false⟩]
     | some (.varDecl ids) =>
       ids.filterMap (fun id => id.map (fun name => ⟨name, line, "variable", false⟩))
     | _ => [])
    ++ specifiers.filterMap (fun sp => sp.map (fun name => ⟨name, line, "named", false⟩))
  | .exportDefault line idName nameField _ =>
    [⟨(idName.orElse (fun _ => nameField)).getD "default", line, "default", true⟩]
  | _ => []

/-- The child subtrees of a node (the `for key in node` recursion). -/
def childrenOf : EsNode → List EsNode
  | .importDecl _ _ children => children
  | .exportNamed _ _ _ _ children => children
  | .exportAll _ children => children
  | .exportDefault _ _ _ children => children
  | .callRequire _ children => children
  | .varDeclarator _ children => children
  | .otherNode children => children

mutual

/-- The AST walk of `extractExports`: pre-order collection of export records. -/
def walkExports : EsNode → List ExpRec
  | n@(.importDecl _ _ children) => exportsOfNode n ++ walkExportsList children
  | n@(.exportNamed _ _ _ _ children) => exportsOfNode n ++ walkExportsList children
  | n@(.exportAll _ children) => exportsOfNode n ++ walkExportsList children
  | n@(.exportDefault _ _ _ children) => exportsOfNode n ++ walkExportsList children
  | n@(.callRequire _ children) => exportsOfNode n ++ walkExportsList children
  | n@(.varDeclarator _ children) => exportsOfNode n ++ walkExportsList children
  | n@(.otherNode children) => exportsOfNode n ++ walkExportsList children

def walkExportsList : List EsNode → List ExpRec
  | [] => []
  | n :: rest => walkExports n ++ walkExportsList rest

end

/-- The imported names contributed by a single node in the walk of
`extractImports` (`unused-exports.js` lines 483-528): import-specifier names,
and require-call bindings read off the parent `VariableDeclarator` (the walk
threads `child.parent = node`, modelled by passing the parent down). -/
def importsOfNode (parent : Option EsNode) : EsNode → List String
  | .importDecl _ specifiers _ =>
    specifiers.flatMap (fun spec => optList spec.imported ++ optList spec.localBinding)
  | .callRequire _ _ =>
    match parent with
    | some (.varDeclarator pat _) =>
      match pat with
      | .objPattern props => props.filterMap id
      | .identPat (some name) => [name]
      | .identPat none => []
      | .otherPat => []
    | _ => []
  | _ => []

mutual

/-- The AST walk of `extractImports`, with the parent node threaded down. -/
def walkImports (parent : Option EsNode) : EsNode → List String
  | n@(.importDecl _ _ children) => importsOfNode parent n ++ walkImportsList (some n) children
  | n@(.exportNamed _ _ _ _ children) => importsOfNode parent n ++ walkImportsList (some n) children
  | n@(.exportAll _ children) => importsOfNode parent n ++ walkImportsList (some n) children
  | n@(.exportDefault _ _ _ children) => importsOfNode parent n ++ walkImportsList (some n) children
  | n@(.callRequire _ children) => importsOfNode parent n ++ walkImportsList (some n) children
  | n@(.varDeclarator _ children) => importsOfNode parent n ++ walkImportsList (some n) children
  | n@(.otherNode children) => importsOfNode parent n ++ walkImportsList (some n) children

def walkImportsList (parent : Option EsNode) : List EsNode → List String
  | [] => []
  | n :: rest => walkImports parent n ++ walkImportsList parent rest

end

/-! ## The two Python dependency regexes, implemented concretely

`extractDependenciesPython` matches `/from\s+(\.[\w.]*)\s+import/` and
`/import\s+(\.[\w.]+)/` against each line.  Both regexes are deterministic
(the classes `\s` and `[\w.]` are disjoint, so greedy matching never
backtracks); the scanners below implement leftmost-match semantics. -/

/-- Try `from\s+(\.[\w.]*)\s+import` anchored at the start of `cs`;
return the capture tail (the part of the capture after its leading dot). -/
def tryPyFromAt (cs : List Char) : Option (List Char) :=
  match cs with
  | 'f' :: 'r' :: 'o' :: 'm' :: rest =>
    match rest with
    | c :: _ =>
      if isWs c then
        match rest.dropWhile isWs with
        | '.' :: rest2 =>
          let cap := rest2.takeWhile isWordDot
          let rest3 := rest2.dropWhile isWordDot
          match rest3 with
          | d :: _ =>
            if isWs d then
              if ['i', 'm', 'p', 'o', 'r', 't'].isPrefixOf (rest3.dropWhile isWs) then
                some cap
              else none
            else none
          | [] => none
        | _ => none
      else none
    | [] => none
  | _ => none

/-- Leftmost match of `from\s+(\.[\w.]*)\s+import` in a line; the capture
is the dot followed by the matched tail. -/
def scanPyFrom : List Char → Option String
  | [] => none
  | c :: rest =>
    match tryPyFromAt (c :: rest) with
    | some cap => some ⟨'.' :: cap⟩
    | none => scanPyFrom rest

/-- Try `import\s+(\.[\w.]+)` anchored at the start of `cs`; return the
capture tail (nonempty, after the leading dot). -/
def tryPyImportAt (cs : List Char) : Option (List Char) :=
  match cs with
  | 'i' :: 'm' :: 'p' :: 'o' :: 'r' :: 't' :: rest =>
    match rest with
    | c :: _ =>
      if isWs c then
        match rest.dropWhile isWs with
        | '.' :: rest2 =>
          let cap := rest2.takeWhile isWordDot
          if cap.isEmpty then none else some cap
        | _ => none
      else none
    | [] => none
  | _ => none

/-- Leftmost match of `import\s+(\.[\w.]+)` in a line. -/
def scanPyImport : List Char → Option String
  | [] => none
  | c :: rest =>
    match tryPyImportAt (c :: rest) with
    | some cap => some ⟨'.' :: cap⟩
    | none => scanPyImport rest

example : scanPyFrom "from .module import foo".data = some ".module" := by decide
example : scanPyFrom "from os import path".data = none := by decide
example : scanPyImport "import .mod".data = some ".mod" := by decide
example : scanPyImport "import os".data = none := by decide
example : scanPyImport "from .a import x".data = none := by decide

/-! ## Per-line regex views of the source text

The JavaScript fallback scanners run a fixed set of regular expressions on
each line; a `JsLineView` records, for one line of source text, the capture of
each of those regexes (`none` = the regex does not match the line).  Fields
holding a raw capture are post-processed concretely below exactly as the JS
code processes them. -/

structure JsLineView where
  /-- Capture 1 (the quoted module string) of the import-from regex
  from line 97 of the source. -/
  importFromDep : Option String := none
  /-- Capture 1 (the quoted module string) of the require-call regex
  from line 103 of the source. -/
  requireDep : Option String := none
  /-- Capture 1 (the quoted module string) of the export-from regex
  from line 109 of the source. -/
  exportFromDep : Option String := none
  /-- Capture 1 of `/export\s+(?:async\s+)?function\s+([a-zA-Z_$][a-zA-Z0-9_$]*)/`. -/
  expFuncName : Option String := none
  /-- Capture 1 of `/export\s+class\s+([a-zA-Z_$][a-zA-Z0-9_$]*)/`. -/
  expClassName : Option String := none
  /-- Capture 1 of `/export\s+(?:const|let|var)\s+([a-zA-Z_$][a-zA-Z0-9_$]*)/`. -/
  expVarName : Option String := none
  /-- Capture 1 of `/export\s*\{\s*([^}]+)\s*\}/` (raw, before splitting). -/
  expNamedRaw : Option String := none
  /-- Whether `/export\s+default/` matches the line. -/
  hasExportDefault : Bool := false
  /-- Capture 1 of `/import\s*\{\s*([^}]+)\s*\}/` (raw, before splitting). -/
  impNamedRaw : Option String := none
  /-- Capture 1 of `/import\s+([a-zA-Z_$][a-zA-Z0-9_$]*)\s+from/`. -/
  impDefaultName : Option String := none
  /-- Capture 1 of `/const\s*\{\s*([^}]+)\s*\}\s*=\s*require/` (raw). -/
  reqDestructureRaw : Option String := none
  /-- Capture 1 of `/const\s+([a-zA-Z_$][a-zA-Z0-9_$]*)\s*=\s*require/`. -/
  reqDefaultName : Option String := none
deriving Repr, DecidableEq

/-- One line of a Python file: the raw text (used concretely by the dependency
and `def`/`class` scanners) plus the import-regex captures. -/
structure PyLine where
  text : String := ""
  /-- Names derived from `/from\s+[\w.]+\s+import\s+(.+)/` capture 1 after
  `split(",").map(n => n.trim().split(/\s+as\s+/).shift())` (`none` = no match). -/
  fromImportNames : Option (List String) := none
  /-- The name added for `/import\s+([\w.]+)(?:\s+as\s+([\w]+))?/`:
  `match[2] || match[1]` (`none` = no match). -/
  importedName : Option String := none
deriving Repr, DecidableEq

/-- The views of one file's source text: the acorn parse result (`none` = the
parse throws, for every parse in this subsystem, since they all run acorn on
the same text) and the per-line regex views. -/
structure Code where
  ast : Option EsNode := none
  jsLines : List JsLineView := []
  pyLines : List PyLine := []
  /-- Capture 1 of `/__all__\s*=\s*\[([^\]]+)\]/` on the whole text. -/
  pyAllCapture : Option String := none

/-- `file.language || "javascript"`. -/
def langOrDefault : Option String → String
  | none => "javascript"
  | some s => if s = "" then "javascript" else s

/-! ## Dependency extraction (`circular-deps.js`) -/

/-- `extractDependenciesRegex` (`circular-deps.js` lines 91-116): per-line
pushes of the three dependency regex captures, then the relative-path filter. -/
def extractDependenciesRegex (lines : List JsLineView) : List String :=
  (lines.flatMap (fun line =>
      optList line.importFromDep ++ optList line.requireDep ++ optList line.exportFromDep)).filter
    (fun dep => strStartsWith dep ".")

/-- `extractDependenciesPython` (`circular-deps.js` lines 121-140). -/
def extractDependenciesPython (pyLines : List PyLine) : List String :=
  pyLines.flatMap (fun line =>
    (match scanPyFrom line.text.data with | some d => [d] | none => [])
    ++ (match scanPyImport line.text.data with | some d => [d] | none => []))

/-- `extractDependencies` (`circular-deps.js` lines 18-86).  On the structural
path the collected module strings are filtered to relative ones and resolved
against the referencing file's directory; a parse failure returns the regex
fallback's result directly (skipping that filter/resolve tail), and the Python
path likewise returns its captures directly.  (`path.resolve` cannot throw on
strings, so the `try/catch` around it is not modelled.) -/
def extractDependencies (code : Code) (language : String) (filePath : String) : List String :=
  if language = "javascript" || language = "typescript" then
    match code.ast with
    | some ast =>
      ((walkDeps ast).filter (fun dep => strStartsWith dep ".")).map
        (fun dep => resolvePath (dirname filePath) dep)
    | none => extractDependenciesRegex code.jsLines
  else if language = "python" then
    extractDependenciesPython code.pyLines
  else []

/-! ## Export extraction (`unused-exports.js`) -/

/-- `extractExportsRegex` (`unused-exports.js` lines 393-432). -/
def extractExportsRegex (lines : List JsLineView) : List ExpRec :=
  lines.enum.flatMap (fun p =>
    let i := p.1
    let line := p.2
    (match line.expFuncName with
     | some nm => [⟨nm, i + 1, "function", false⟩] | none => [])
    ++ (match line.expClassName with
     | some nm => [⟨nm, i + 1, "class", false⟩] | none => [])
    ++ (match line.expVarName with
     | some nm => [⟨nm, i + 1, "variable", false⟩] | none => [])
    ++ (match line.expNamedRaw with
     | some capture =>
       (((splitOnChar ',' capture).map (fun n => lastAsSegment (strTrim n))).filter
         (fun name => name ≠ "")).map (fun name => ⟨name, i + 1, "named", false⟩)
     | none => [])
    ++ (if line.hasExportDefault then [⟨"default", i + 1, "default", true⟩] else []))

/-- `^def\s+([a-zA-Z_][a-zA-Z0-9_]*)/` anchored match. -/
def pyAnchoredName (kw : List Char) (text : String) : Option String :=
  if kw.isPrefixOf text.data then
    let rest := text.data.drop kw.length
    match rest with
    | c :: _ =>
      if isWs c then
        match rest.dropWhile isWs with
        | d :: rest2 =>
          if d.isAlpha || d = '_' then some ⟨d :: rest2.takeWhile isWordChar⟩ else none
        | [] => none
      else none
    | [] => none
  else none

/-- `extractExportsPython` (`unused-exports.js` lines 437-465): the `__all__`
list (export kind `public`) followed by top-level non-underscore `def`/`class`
names. -/
def extractExportsPython (code : Code) : List ExpRec :=
  let lines := code.pyLines
  let allExps :=
    match code.pyAllCapture with
    | some capture =>
      ((splitOnChar ',' capture).map (fun n => stripQuotes (strTrim n))).map (fun name =>
        let lineNum :=
          match lines.findIdx? (fun l => strContains l.text name) with
          | some i => i + 1
          | none => 1
        (⟨name, lineNum, "public", false⟩ : ExpRec))
    | none => []
  allExps ++ lines.enum.flatMap (fun p =>
    let i := p.1
    (match pyAnchoredName ['d', 'e', 'f'] p.2.text with
     | some nm => if strStartsWith nm "_" then [] else [⟨nm, i + 1, "function", false⟩]
     | none => [])
    ++ (match pyAnchoredName ['c', 'l', 'a', 's', 's'] p.2.text with
     | some nm => if strStartsWith nm "_" then [] else [⟨nm, i + 1, "class", false⟩]
     | none => []))

/-- `extractExports` (`unused-exports.js` lines 297-388). -/
def extractExports (code : Code) (language : String) : List ExpRec :=
  if language = "javascript" || language = "typescript" then
    match code.ast with
    | some ast => walkExports ast
    | none => extractExportsRegex code.jsLines
  else if language = "python" then
    extractExportsPython code
  else []

/-! ## Import extraction (`unused-exports.js`) -/

/-- JS `Set.add`: append only if absent (preserving first-insertion order). -/
def setAdd (l : List String) (x : String) : List String :=
  if x ∈ l then l else l ++ [x]

/-- `extractImportsRegex` (`unused-exports.js` lines 545-578). -/
def extractImportsRegex (lines : List JsLineView) : List String :=
  (lines.flatMap (fun line =>
    (match line.impNamedRaw with
     | some capture => (splitOnChar ',' capture).map (fun n => firstAsSegment (strTrim n))
     | none => [])
    ++ optList line.impDefaultName
    ++ (match line.reqDestructureRaw with
     | some capture => (splitOnChar ',' capture).map (fun n => firstColonSegment (strTrim n))
     | none => [])
    ++ optList line.reqDefaultName)).foldl setAdd []

/-- `extractImportsPython` (`unused-exports.js` lines 583-603). -/
def extractImportsPython (pyLines : List PyLine) : List String :=
  (pyLines.flatMap (fun line =>
    (line.fromImportNames.getD []) ++ optList line.importedName)).foldl setAdd []

/-- `extractImports` (`unused-exports.js` lines 473-540). -/
def extractImports (code : Code) (language : String) : List String :=
  if language = "javascript" || language = "typescript" then
    match code.ast with
    | some ast => (walkImports none ast).foldl setAdd []
    | none => extractImportsRegex code.jsLines
  else if language = "python" then
    extractImportsPython code.pyLines
  else []

/-! ## Dependency graph construction (`circular-deps.js` lines 147-179) -/

/-- One input file as handed to the cross-file module: `{path, code, language}`. -/
structure SFile where
  path : String
  code : Code := {}
  language : Option String := none

/-- The dependency graph: an insertion-ordered map from normalized file path to
an insertion-ordered set of dependency targets (`Map<string, Set<string>>`). -/
abbrev Graph := List (String × List String)

/-- `graph.get(node) || new Set()`. -/
def adj (g : Graph) (node : String) : List String :=
  match g.find? (fun e => decide (e.1 = node)) with
  | some e => e.2
  | none => []

/-- `graph.has(k)`. -/
def hasKey (g : Graph) (k : String) : Bool :=
  (g.find? (fun e => decide (e.1 = k))).isSome

/-- `if (!graph.has(k)) graph.set(k, new Set())`. -/
def ensureKey (g : Graph) (k : String) : Graph :=
  if hasKey g k then g else g ++ [(k, [])]

/-- `graph.get(u).add(v)` (every key occurs once, by construction). -/
def addEdge (g : Graph) (u v : String) : Graph :=
  g.map (fun e => if e.1 = u then (e.1, setAdd e.2 v) else e)

/-- The per-file match test of `circular-deps.js` lines 163-168: exact
normalized path, or equality after stripping a known source extension from
the candidate and from the file path. -/
def depMatchPred (normalizedDep : String) (f : SFile) : Bool :=
  let fPath := normalizePath f.path
  let fPathNoExt := stripSrcExt fPath
  let depNoExt := stripSrcExt normalizedDep
  decide (fPath = normalizedDep ∨ fPathNoExt = depNoExt ∨ fPath = depNoExt)

/-- The target stored for one extracted dependency (`circular-deps.js` lines
159-172): normalize it, replace it by the normalized path of a matching file
when one exists, and keep the normalized dependency itself otherwise. -/
def resolveDep (files : List SFile) (dep : String) : String :=
  let normalizedDep := normalizePath dep
  match files.find? (depMatchPred normalizedDep) with
  | some f => normalizePath f.path
  | none => normalizedDep

/-- `buildDependencyGraph`. -/
def buildDependencyGraph (files : List SFile) : Graph :=
  files.foldl (fun graph file =>
    let normalizedPath := normalizePath file.path
    let deps := extractDependencies file.code (langOrDefault file.language) file.path
    let graph := ensureKey graph normalizedPath
    deps.foldl (fun g dep => addEdge g normalizedPath (resolveDep files dep)) graph) []

/-- The keys of the graph, in insertion order (`graph.keys()`). -/
def keysOf (g : Graph) : List String := g.map (·.1)

/-- All node names occurring in the graph (keys and targets); only used to
size the recursion fuel of the DFS. -/
def univ (g : Graph) : List String := keysOf g ++ g.flatMap (·.2)

/-! ## Cycle detection (`circular-deps.js` lines 186-225)

The JS `dfs` keeps four pieces of state: `visited`, the ordered `pathStack`,
the `recursionStack` set (always containing exactly the elements of
`pathStack`, since the two are pushed and popped together and `dfs` is only
invoked on unvisited nodes), and the accumulated `cycles`.  `recursionStack`
is therefore modelled as membership in `pathStack`.  The additional `finished`
field is verification-only instrumentation recording the order in which nodes
are settled; no other field depends on it.  The recursion is driven by a fuel
parameter that bounds the nesting depth; the fuel used by `detectCycles`
always suffices (each nested call visits a fresh node), which the finishing
lemmas below make precise. -/

structure DfsState where
  visited : List String := []
  pathStack : List String := []
  cycles : List (List String) := []
  finished : List String := []
deriving Repr, DecidableEq

/-- `pathStack.indexOf(neighbor)`. -/
def indexOfStr (l : List String) (x : String) : Nat :=
  l.findIdx (fun y => decide (y = x))

/-- Record one discovered cycle: the slice of the path stack from the first
occurrence of `neighbor` to the top, closed by repeating `neighbor`. -/
def pushCycle (s : DfsState) (neighbor : String) : DfsState :=
  let cycleStart := indexOfStr s.pathStack neighbor
  let cycle := s.pathStack.drop cycleStart ++ [neighbor]
  { s with cycles := s.cycles ++ [cycle] }

/-- The recursion of `dfs`, as one fuel-indexed function (so that it is
structurally recursive and evaluates by kernel reduction).  `.inl node` is the
body of `dfs(node)`: mark visited, push on the stack, process the neighbors,
then pop and settle.  `.inr l` is the `for (const neighbor of neighbors)`
loop over the remaining neighbors `l`: recurse into unvisited neighbors; a
visited neighbor on the recursion stack closes a cycle.  Fuel decreases on
every step; the fuel supplied by `detectCycles` always suffices (the
finishing lemmas below make this precise), so the out-of-fuel branch is never
taken there. -/
def dfsGo (g : Graph) : Nat → String ⊕ List String → DfsState → DfsState
  | 0, _, s => s
  | fuel + 1, .inl node, s =>
    let s1 := { s with visited := s.visited ++ [node], pathStack := s.pathStack ++ [node] }
    let s2 := dfsGo g fuel (.inr (adj g node)) s1
    { s2 with pathStack := s2.pathStack.dropLast, finished := s2.finished ++ [node] }
  | _ + 1, .inr [], s => s
  | fuel + 1, .inr (n :: rest), s =>
    let s' :=
      if n ∈ s.visited then (if n ∈ s.pathStack then pushCycle s n else s)
      else dfsGo g fuel (.inl n) s
    dfsGo g fuel (.inr rest) s'

/-- `dfs(node)`. -/
def dfsVisit (g : Graph) (fuel : Nat) (node : String) (s : DfsState) : DfsState :=
  dfsGo g fuel (.inl node) s

/-- The neighbor loop of `dfs`. -/
def dfsNeighbors (g : Graph) (fuel : Nat) (l : List String) (s : DfsState) : DfsState :=
  dfsGo g fuel (.inr l) s

/-- The fuel supplied to the DFS: enough for one step per neighbor-list
element of every visit, for every node that can be visited. -/
def dfsFuel (g : Graph) : Nat :=
  (univ g).length * ((univ g).length + 1) + 1

/-- The `for (const node of graph.keys())` loop of `detectCycles`: run the
DFS from every unvisited key. -/
def runDfs (g : Graph) : DfsState :=
  (keysOf g).foldl
    (fun s node => if node ∈ s.visited then s else dfsVisit g (dfsFuel g) node s) {}

/-- `detectCycles`. -/
def detectCycles (g : Graph) : List (List String) :=
  (runDfs g).cycles

/-! ## Circular-dependency reporting (`circular-deps.js` lines 233-279) -/

/-- `[...cycle].sort()` (JS default sort: lexicographic string order). -/
def strLtChars : List Char → List Char → Bool
  | [], [] => false
  | [], _ :: _ => true
  | _ :: _, [] => false
  | a :: as, b :: bs =>
    if a.toNat < b.toNat then true
    else if b.toNat < a.toNat then false
    else strLtChars as bs

/-- Lexicographic code-unit order, as used by JavaScript `Array.sort()` on
strings. -/
def strLeB (a b : String) : Bool := ! strLtChars b.data a.data

def sortStrings (l : List String) : List String :=
  l.insertionSort (fun a b => strLeB a b = true)

/-- `sorted.join("|")`: the dedup signature of a cycle. -/
def cycleSignature (cycle : List String) : String :=
  joinSep "|" (sortStrings cycle)

/-- One step of the dedup loop: keep the cycle only when its signature is
new (the accumulator pairs `uniqueCycles` with `seenCycles`). -/
def dedupStep (acc : List (List String) × List String) (cycle : List String) :
    List (List String) × List String :=
  let signature := cycleSignature cycle
  if signature ∈ acc.2 then acc else (acc.1 ++ [cycle], acc.2 ++ [signature])

/-- Deduplicate discovered cycles by signature, keeping first occurrences. -/
def dedupCycles (cycles : List (List String)) : List (List String) :=
  (cycles.foldl dedupStep ([], [])).1

/-- The uniform diagnostic record (`StructuralIssue`); `kind` models the JS
field `type`. -/
structure Issue where
  kind : String
  severity : String
  rule : String
  file : String
  line : Nat
  message : String
  suggestion : String
  exportName : Option String := none
  exportType : Option String := none
  cycle : Option (List String) := none
  cycleIndex : Option Nat := none
deriving Repr, DecidableEq

/-- The remediation text of a circular-dependency issue. -/
def circularSuggestion : String :=
  "Refactor the code to break the circular dependency. Consider extracting shared code into a separate module or using dependency injection."

/-- The issue reported for the unique cycle at (zero-based) position `p.1`:
reported on the first file of the cycle, at line 1. -/
def circularIssue (p : Nat × List String) : Issue :=
  let cycle := p.2
  let cycleChain := joinSep " → " (cycle.map basename)
  let firstFile := (cycle.head?).getD ""
  { kind := "structural", severity := "error", rule := "circular-dependency",
    file := firstFile, line := 1,
    message := "Circular dependency detected: " ++ cycleChain,
    suggestion := circularSuggestion,
    cycle := some cycle, cycleIndex := some (p.1 + 1) }

/-- `detect` of `circular-deps.js`: build the graph, detect cycles,
deduplicate, and report each unique cycle once. -/
def circularDetect (files : List SFile) : List Issue :=
  let graph := buildDependencyGraph files
  let cycles := detectCycles graph
  let uniqueCycles := dedupCycles cycles
  uniqueCycles.enum.map circularIssue

/-! ## Unused-export reporting (`unused-exports.js` lines 611-662) -/

/-- One stored location of an export declaration. -/
structure ExpLoc where
  file : String
  line : Nat
  kind : String
  isDefault : Bool
deriving Repr, DecidableEq

/-- `allExports.get(name).push(loc)`, creating the entry on first use
(insertion-ordered map). -/
def mapPush (m : List (String × List ExpLoc)) (name : String) (loc : ExpLoc) :
    List (String × List ExpLoc) :=
  if (m.find? (fun e => decide (e.1 = name))).isSome then
    m.map (fun e => if e.1 = name then (e.1, e.2 ++ [loc]) else e)
  else m ++ [(name, [loc])]

/-- The issue reported for one unused export declaration site. -/
def unusedIssue (exportName : String) (loc : ExpLoc) : Issue :=
  { kind := "structural", severity := "warning", rule := "unused-export",
    file := loc.file, line := loc.line,
    message := "Export \x27" ++ exportName ++ "\x27 is never imported in any file.",
    suggestion := "Remove the export of \x27" ++ exportName ++
      "\x27 or ensure it\x27s imported where needed.",
    exportName := some exportName, exportType := some loc.kind }

/-- Pass 3 of `detect` in `unused-exports.js`, one export-map entry at a
time: skip the sentinel name `default`, skip names that occur in the
project-wide import set, and otherwise report every declaration site. -/
def unusedStep (allImports : List String) (issues : List Issue)
    (e : String × List ExpLoc) : List Issue :=
  if e.1 = "default" then issues
  else if e.1 ∈ allImports then issues
  else issues ++ e.2.map (unusedIssue e.1)

/-- `detect` of `unused-exports.js`: collect all exports (pass 1) and all
imported names (pass 2), then flag every export whose name is not the sentinel
`"default"` and does not occur in the project-wide import set (pass 3). -/
def unusedDetect (files : List SFile) : List Issue :=
  let allExports := files.foldl (fun m file =>
    (extractExports file.code (langOrDefault file.language)).foldl
      (fun m exp => mapPush m exp.name ⟨file.path, exp.line, exp.kind, exp.isDefault⟩) m) []
  let allImports := files.foldl (fun s file =>
    (extractImports file.code (langOrDefault file.language)).foldl setAdd s) []
  allExports.foldl (unusedStep allImports) []

/-! ## Orchestration (`cross-file/index.js` and `src/index.js`) -/

/-- `severityOrder = {critical: 0, error: 1, warning: 2}`.  The issues built
by the two detectors always carry `"error"` or `"warning"`; any other string
falls to the `warning` rank (the JS lookup would yield `undefined` there,
which no reachable comparison produces). -/
def severityRank (s : String) : Nat :=
  if s = "critical" then 0 else if s = "error" then 1 else 2

/-- The sort order of `analyzeProject` in `cross-file/index.js`: severity rank
first, then reporting-file path (`localeCompare` modelled as lexicographic
string order). -/
def issueLe (a b : Issue) : Prop :=
  severityRank a.severity < severityRank b.severity ∨
    (severityRank a.severity = severityRank b.severity ∧ a.file ≤ b.file)

instance : DecidableRel issueLe := fun a b => by
  unfold issueLe; infer_instance

instance : IsTotal Issue issueLe where
  total a b := by
    unfold issueLe
    rcases Nat.lt_trichotomy (severityRank a.severity) (severityRank b.severity) with h | h | h
    · exact Or.inl (Or.inl h)
    · rcases le_total a.file b.file with hf | hf
      · exact Or.inl (Or.inr ⟨h, hf⟩)
      · exact Or.inr (Or.inr ⟨h.symm, hf⟩)
    · exact Or.inr (Or.inl h)

instance : IsTrans Issue issueLe where
  trans a b c hab hbc := by
    unfold issueLe at *
    rcases hab with h | ⟨h, hf⟩
    · rcases hbc with h' | ⟨h', _⟩
      · exact Or.inl (h.trans h')
      · exact Or.inl (h' ▸ h)
    · rcases hbc with h' | ⟨h', hf'⟩
      · exact Or.inl (h ▸ h')
      · exact Or.inr ⟨h.trans h', hf.trans hf'⟩

namespace CrossFile

/-- `analyzeProject` in `cross-file/index.js`: concatenate the unused-export
and circular-dependency issues, then sort by severity rank and file path
(`Array.prototype.sort` is stable, as is insertion sort). -/
def analyzeProject (files : List SFile) : List Issue :=
  let structural := unusedDetect files ++ circularDetect files
  structural.insertionSort issueLe

end CrossFile

/-- The `projectAnalysis` part of the report of `analyzeProject` in
`src/index.js`. -/
structure ProjectReport where
  filesAnalyzed : Nat
  structural : List Issue
  unusedExports : Nat
  circularDependencies : Nat
  totalIssues : Nat
deriving Repr, DecidableEq

namespace Main

/-- `analyzeProject` in `src/index.js`, with file reading and language
detection (which happen outside this subsystem) abstracted: the input is the
already-read file list handed to the cross-file module. -/
def analyzeProject (files : List SFile) : ProjectReport :=
  let structural := CrossFile.analyzeProject files
  { filesAnalyzed := files.length
    structural := structural
    unusedExports := (structural.filter (fun i => decide (i.rule = "unused-export"))).length
    circularDependencies :=
      (structural.filter (fun i => decide (i.rule = "circular-dependency"))).length
    totalIssues := structural.length }

end Main

/-! ## Graph notions used by the specifications -/

/-- `v` is a direct dependency of `u` in the graph. -/
def Edge (g : Graph) (u v : String) : Prop := v ∈ adj g u

instance (g : Graph) : DecidableRel (Edge g) := fun u v =>
  inferInstanceAs (Decidable (v ∈ adj g u))

/-- A simple cycle: a nonempty, duplicate-free node sequence with an edge
between each consecutive pair and an edge from the last node back to the
first (for a single node, a self-edge). -/
def IsSimpleCycle (g : Graph) (l : List String) : Prop :=
  l ≠ [] ∧ l.Nodup ∧ List.Chain' (Edge g) l ∧ Edge g (l.getLastD "") (l.headD "")

/-- Executable chain test for graph edges (the library decidability instance
for `List.Chain'` does not reduce in the kernel). -/
def chainEdgeB (g : Graph) : List String → Bool
  | [] => true
  | [_] => true
  | a :: b :: t => decide (b ∈ adj g a) && chainEdgeB g (b :: t)

lemma chainEdgeB_iff (g : Graph) : ∀ l, chainEdgeB g l = true ↔ List.Chain' (Edge g) l
  | [] => by simp [chainEdgeB]
  | [a] => by simp [chainEdgeB]
  | a :: b :: t => by
    have ih := chainEdgeB_iff g (b :: t)
    show (decide (b ∈ adj g a) && chainEdgeB g (b :: t)) = true ↔ _
    rw [List.chain'_cons, Bool.and_eq_true, decide_eq_true_eq, ih]
    exact Iff.rfl

instance (g : Graph) (l : List String) : Decidable (IsSimpleCycle g l) :=
  decidable_of_iff
    (l ≠ [] ∧ l.Nodup ∧ chainEdgeB g l = true ∧ Edge g (l.getLastD "") (l.headD ""))
    (by rw [chainEdgeB_iff]; exact Iff.rfl)

lemma hasKey_of_mem_adj {g : Graph} {x v : String} (h : v ∈ adj g x) :
    hasKey g x = true := by
  unfold adj at h
  unfold hasKey
  cases hf : g.find? (fun e => decide (e.1 = x)) with
  | none => rw [hf] at h; simp at h
  | some e => simp [hf]

lemma adj_eq_nil_of_not_hasKey {g : Graph} {x : String} (h : ¬ hasKey g x = true) :
    adj g x = [] := by
  unfold hasKey at h
  unfold adj
  cases hf : g.find? (fun e => decide (e.1 = x)) with
  | none => rfl
  | some e => rw [hf] at h; simp at h

lemma key_of_mem_adj {g : Graph} {x v : String} (h : v ∈ adj g x) :
    x ∈ keysOf g := by
  unfold adj at h
  cases hf : g.find? (fun e => decide (e.1 = x)) with
  | none => rw [hf] at h; simp at h
  | some e =>
    have hmem := List.mem_of_find?_eq_some hf
    have hp := List.find?_some hf
    simp only [decide_eq_true_eq] at hp
    exact hp ▸ List.mem_map_of_mem _ hmem

lemma mem_univ_of_mem_adj {g : Graph} {x v : String} (h : v ∈ adj g x) :
    v ∈ univ g := by
  unfold adj at h
  cases hf : g.find? (fun e => decide (e.1 = x)) with
  | none => rw [hf] at h; simp at h
  | some e =>
    rw [hf] at h
    have hmem := List.mem_of_find?_eq_some hf
    exact List.mem_append_right _ (List.mem_flatMap.mpr ⟨e, hmem, h⟩)

lemma key_mem_univ {g : Graph} {k : String} (h : k ∈ keysOf g) : k ∈ univ g :=
  List.mem_append_left _ h

lemma adj_length_le_univ (g : Graph) (x : String) :
    (adj g x).length ≤ (univ g).length := by
  unfold adj
  cases hf : g.find? (fun e => decide (e.1 = x)) with
  | none => simp
  | some e =>
    have hmem := List.mem_of_find?_eq_some hf
    obtain ⟨s, t, rfl⟩ := List.append_of_mem hmem
    simp [univ, keysOf, List.flatMap_append]
    omega

/-! ## Counting unvisited nodes (fuel bookkeeping) -/

/-- The number of graph nodes not yet visited (with multiplicity in `univ`);
the fuel invariant is stated in terms of this count. -/
def cntG (g : Graph) (s : DfsState) : Nat :=
  ((univ g).filter (fun x => decide (x ∉ s.visited))).length

lemma cntG_le (g : Graph) (s : DfsState) : cntG g s ≤ (univ g).length :=
  List.length_filter_le _ _

lemma filter_length_mono {α : Type} (l : List α) (p q : α → Bool)
    (h : ∀ x, p x = true → q x = true) :
    (l.filter p).length ≤ (l.filter q).length := by
  induction l with
  | nil => simp
  | cons a l ih =>
    by_cases hp : p a = true
    · simp [List.filter_cons, hp, h a hp]; omega
    · simp only [List.filter_cons]
      by_cases hq : q a = true <;> simp [hp, hq] <;> omega

lemma filter_length_strict {α : Type} (l : List α) (p q : α → Bool)
    (h : ∀ x, q x = true → p x = true) (a : α) (ha : a ∈ l)
    (hpa : p a = true) (hqa : ¬ q a = true) :
    (l.filter q).length < (l.filter p).length := by
  induction l with
  | nil => simp at ha
  | cons b l ih =>
    rcases List.mem_cons.mp ha with rfl | hb
    · simp only [List.filter_cons, hpa, if_pos]
      by_cases hqb : q a = true
      · exact absurd hqb hqa
      · simp only [hqb, if_neg, Bool.false_eq_true, not_false_iff]
        have := filter_length_mono l q p h
        simp
        omega
    · simp only [List.filter_cons]
      by_cases hpb : p b = true
      · by_cases hqb : q b = true
        · simp [hpb, hqb]; have := ih hb; omega
        · simp [hpb, hqb]
          have := filter_length_mono l q p h
          omega
      · have hqb : ¬ q b = true := fun hq => hpb (h b hq)
        simp [hpb, hqb]
        exact ih hb

lemma cntG_mono {g : Graph} {s s' : DfsState}
    (h : ∀ x, x ∈ s.visited → x ∈ s'.visited) : cntG g s' ≤ cntG g s := by
  apply filter_length_mono
  intro x hx
  simp only [decide_eq_true_eq] at hx ⊢
  exact fun hmem => hx (h x hmem)

lemma cntG_push {g : Graph} {s : DfsState} {node : String}
    (hu : node ∈ univ g) (hv : node ∉ s.visited) :
    cntG g { s with visited := s.visited ++ [node], pathStack := s.pathStack ++ [node] }
      < cntG g s := by
  apply filter_length_strict (univ g)
    (fun x => decide (x ∉ s.visited))
    (fun x => decide (x ∉ s.visited ++ [node]))
  · intro x hx
    simp only [decide_eq_true_eq, List.mem_append] at hx ⊢
    exact fun hmem => hx (Or.inl hmem)
  · exact hu
  · simpa using hv
  · simp

/-! ## DFS monotonicity (fuel-independent) -/

lemma dfsGo_basic (g : Graph) : ∀ (fuel : Nat) (arg : String ⊕ List String) (s : DfsState),
    (dfsGo g fuel arg s).pathStack = s.pathStack ∧
    s.visited <+: (dfsGo g fuel arg s).visited ∧
    s.cycles <+: (dfsGo g fuel arg s).cycles ∧
    s.finished <+: (dfsGo g fuel arg s).finished := by
  intro fuel
  induction fuel with
  | zero => intro arg s; simp [dfsGo]
  | succ fuel ih =>
    intro arg s
    match arg with
    | .inl node =>
      obtain ⟨h1, h2, h3, h4⟩ := ih (.inr (adj g node))
        { s with visited := s.visited ++ [node], pathStack := s.pathStack ++ [node] }
      refine ⟨?_, ?_, ?_, ?_⟩ <;> simp only [dfsGo]
      · rw [h1]; simp
      · exact ((s.visited.prefix_append [node]).trans h2)
      · exact h3
      · exact h4.trans (List.prefix_append _ [node])
    | .inr [] => simp [dfsGo]
    | .inr (n :: rest) =>
      have hstep : ∀ s' : DfsState,
          (if n ∈ s'.visited then (if n ∈ s'.pathStack then pushCycle s' n else s')
           else dfsGo g fuel (.inl n) s').pathStack = s'.pathStack ∧
          s'.visited <+: (if n ∈ s'.visited then
              (if n ∈ s'.pathStack then pushCycle s' n else s')
            else dfsGo g fuel (.inl n) s').visited ∧
          s'.cycles <+: (if n ∈ s'.visited then
              (if n ∈ s'.pathStack then pushCycle s' n else s')
            else dfsGo g fuel (.inl n) s').cycles ∧
          s'.finished <+: (if n ∈ s'.visited then
              (if n ∈ s'.pathStack then pushCycle s' n else s')
            else dfsGo g fuel (.inl n) s').finished := by
        intro s'
        by_cases hv : n ∈ s'.visited
        · by_cases hp : n ∈ s'.pathStack
          · simp [hv, hp, pushCycle]
          · simp [hv, hp]
        · simpa [hv] using ih (.inl n) s'
      obtain ⟨g1, g2, g3, g4⟩ := hstep s
      obtain ⟨k1, k2, k3, k4⟩ := ih (.inr rest)
        (if n ∈ s.visited then (if n ∈ s.pathStack then pushCycle s n else s)
         else dfsGo g fuel (.inl n) s)
      refine ⟨?_, ?_, ?_, ?_⟩ <;> simp only [dfsGo]
      · rw [k1, g1]
      · exact g2.trans k2
      · exact g3.trans k3
      · exact g4.trans k4

lemma dfsGo_pathStack (g : Graph) (fuel : Nat) (arg : String ⊕ List String) (s : DfsState) :
    (dfsGo g fuel arg s).pathStack = s.pathStack :=
  (dfsGo_basic g fuel arg s).1

lemma dfsGo_visited (g : Graph) (fuel : Nat) (arg : String ⊕ List String) (s : DfsState) :
    s.visited <+: (dfsGo g fuel arg s).visited :=
  (dfsGo_basic g fuel arg s).2.1

lemma dfsGo_visited_subset (g : Graph) (fuel : Nat) (arg : String ⊕ List String)
    (s : DfsState) : ∀ x, x ∈ s.visited → x ∈ (dfsGo g fuel arg s).visited :=
  fun _ hx => (dfsGo_visited g fuel arg s).sublist.mem hx

lemma dfsGo_cycles (g : Graph) (fuel : Nat) (arg : String ⊕ List String) (s : DfsState) :
    s.cycles <+: (dfsGo g fuel arg s).cycles :=
  (dfsGo_basic g fuel arg s).2.2.1

lemma dfsGo_finished (g : Graph) (fuel : Nat) (arg : String ⊕ List String) (s : DfsState) :
    s.finished <+: (dfsGo g fuel arg s).finished :=
  (dfsGo_basic g fuel arg s).2.2.2

/-! ## List auxiliaries for the stack-slice argument -/

lemma indexOfStr_spec {l : List String} {n : String} (h : n ∈ l) :
    (l.drop (indexOfStr l n)).head? = some n ∧ indexOfStr l n < l.length := by
  induction l with
  | nil => simp at h
  | cons a t ih =>
    by_cases ha : a = n
    · subst ha
      simp [indexOfStr, List.findIdx_cons]
    · rcases List.mem_cons.mp h with rfl | ht
      · exact absurd rfl ha
      · have hne : (decide (a = n)) = false := by simp [ha]
        obtain ⟨ih1, ih2⟩ := ih ht
        constructor
        · simpa [indexOfStr, List.findIdx_cons, hne] using ih1
        · have hstep : indexOfStr (a :: t) n = indexOfStr t n + 1 := by
            simp [indexOfStr, List.findIdx_cons, hne]
          rw [hstep, List.length_cons]
          omega

lemma getLast?_of_suffix {l l' : List String} (h : l' <:+ l) (hne : l' ≠ []) :
    l'.getLast? = l.getLast? := by
  obtain ⟨t, rfl⟩ := h
  rw [List.getLast?_append_of_ne_nil]
  exact hne

/-! ## The DFS state invariant -/

/-- A discovered cycle over a given visited list: a simple cycle `l` listed in
visiting order (an ordered sublist of `visited`), closed by repeating its
first node. -/
def DiscCycle (g : Graph) (visited : List String) (c : List String) : Prop :=
  ∃ l, c = l ++ [l.headD ""] ∧ IsSimpleCycle g l ∧ l.Sublist visited

/-- The DFS state invariant, maintained by `dfsGo`: the visited list has no
duplicates, the path stack is an ordered sublist of it forming a path in the
graph, `finished` holds exactly the settled nodes (visited and off the
stack), and every recorded cycle is a discovered cycle. -/
structure Inv (g : Graph) (s : DfsState) : Prop where
  visited_nodup : s.visited.Nodup
  stack_sub : s.pathStack.Sublist s.visited
  stack_chain : List.Chain' (Edge g) s.pathStack
  finished_iff : ∀ x, x ∈ s.finished ↔ x ∈ s.visited ∧ x ∉ s.pathStack
  finished_nodup : s.finished.Nodup
  cycles_ok : ∀ c ∈ s.cycles, DiscCycle g s.visited c

/-- The top of the path stack (when any) has an edge to `n`: the precondition
under which `dfs` examines `n` as a neighbor or recurses into it. -/
def StackTopEdge (g : Graph) (s : DfsState) (n : String) : Prop :=
  ∀ t, s.pathStack.getLast? = some t → Edge g t n

lemma Inv.empty (g : Graph) : Inv g {} := by
  refine ⟨?_, ?_, ?_, ?_, ?_, ?_⟩ <;> simp

lemma pushCycle_inv {g : Graph} {s : DfsState} {n : String} (inv : Inv g s)
    (hstk : n ∈ s.pathStack) (hedge : StackTopEdge g s n) : Inv g (pushCycle s n) := by
  have hstack_nodup : s.pathStack.Nodup := inv.stack_sub.nodup inv.visited_nodup
  obtain ⟨hhead, hlt⟩ := indexOfStr_spec hstk
  set i := indexOfStr s.pathStack n with hi
  set l := s.pathStack.drop i with hl
  have hlsub : l.Sublist s.pathStack := List.drop_sublist _ _
  have hlsuffix : l <:+ s.pathStack := List.drop_suffix _ _
  have hlne : l ≠ [] := by
    intro h
    rw [h] at hhead
    simp at hhead
  have hheadD : l.headD "" = n := by
    rw [List.headD_eq_head?, hhead]
    rfl
  have hstackne : s.pathStack ≠ [] := List.ne_nil_of_mem hstk
  obtain ⟨top, htop⟩ := Option.isSome_iff_exists.mp (List.getLast?_isSome.mpr hstackne)
  have hlast : l.getLastD "" = top := by
    rw [List.getLastD_eq_getLast?, getLast?_of_suffix hlsuffix hlne, htop]
    rfl
  have hcyc : IsSimpleCycle g l :=
    ⟨hlne, hlsub.nodup hstack_nodup, inv.stack_chain.drop i, by
      rw [hlast, hheadD]; exact hedge top htop⟩
  refine ⟨inv.visited_nodup, inv.stack_sub, inv.stack_chain, inv.finished_iff,
    inv.finished_nodup, ?_⟩
  intro c hc
  simp only [pushCycle, List.mem_append, List.mem_singleton] at hc
  rcases hc with hc | rfl
  · exact inv.cycles_ok c hc
  · exact ⟨l, by rw [hheadD], hcyc, hlsub.trans inv.stack_sub⟩

/-- The invariant is preserved by every `dfsGo` call whose argument satisfies
the call-site preconditions of the source (`dfs` is only invoked on unvisited
nodes; a neighbor list is always reachable from the stack top). -/
lemma dfsGo_inv (g : Graph) : ∀ (fuel : Nat) (arg : String ⊕ List String) (s : DfsState),
    Inv g s →
    (∀ node, arg = .inl node → node ∉ s.visited ∧ StackTopEdge g s node) →
    (∀ l, arg = .inr l → ∀ n ∈ l, StackTopEdge g s n) →
    Inv g (dfsGo g fuel arg s) := by
  intro fuel
  induction fuel with
  | zero => intro arg s inv _ _; simpa [dfsGo] using inv
  | succ fuel ih =>
    intro arg s inv hinl hinr
    match arg with
    | .inl node =>
      obtain ⟨hnv, hedge⟩ := hinl node rfl
      have hstack_nodup : s.pathStack.Nodup := inv.stack_sub.nodup inv.visited_nodup
      have hnstk : node ∉ s.pathStack := fun h => hnv (inv.stack_sub.mem h)
      set s1 : DfsState :=
        { s with visited := s.visited ++ [node], pathStack := s.pathStack ++ [node] }
        with hs1
      have inv1 : Inv g s1 := by
        refine ⟨?_, ?_, ?_, ?_, ?_, ?_⟩
        · simpa [List.nodup_append, inv.visited_nodup] using hnv
        · exact inv.stack_sub.append (List.Sublist.refl _)
        · refine List.chain'_append.mpr ⟨inv.stack_chain, List.chain'_singleton _, ?_⟩
          intro x hx y hy
          simp only [List.head?_cons, Option.mem_def, Option.some.injEq] at hy
          exact hy ▸ hedge x hx
        · intro x
          constructor
          · intro hx
            obtain ⟨hv, hp⟩ := (inv.finished_iff x).mp hx
            refine ⟨List.mem_append_left _ hv, ?_⟩
            simp only [List.mem_append, List.mem_singleton]
            rintro (h | rfl)
            · exact hp h
            · exact hnv hv
          · intro ⟨hv, hp⟩
            simp only [List.mem_append, List.mem_singleton] at hv hp
            push_neg at hp
            rcases hv with hv | rfl
            · exact (inv.finished_iff x).mpr ⟨hv, hp.1⟩
            · exact absurd rfl hp.2
        · exact inv.finished_nodup
        · intro c hc
          obtain ⟨l, hcl, hcyc, hsub⟩ := inv.cycles_ok c hc
          exact ⟨l, hcl, hcyc, hsub.trans (List.sublist_append_left _ _)⟩
      have inv2 : Inv g (dfsGo g fuel (.inr (adj g node)) s1) := by
        refine ih (.inr (adj g node)) s1 inv1 (by simp) ?_
        rintro l hl n hn t ht
        injection hl with hl
        subst hl
        have : s1.pathStack.getLast? = some node := by
          show (s.pathStack ++ [node]).getLast? = some node
          rw [List.getLast?_append_of_ne_nil _ (by simp)]
          rfl
        rw [this] at ht
        injection ht with ht
        subst ht
        exact hn
      set s2 := dfsGo g fuel (.inr (adj g node)) s1 with hs2
      have hstk2 : s2.pathStack = s.pathStack ++ [node] := dfsGo_pathStack g fuel _ s1
      have hvis2 : ∀ x, x ∈ s1.visited → x ∈ s2.visited := dfsGo_visited_subset g fuel _ s1
      show Inv g { s2 with pathStack := s2.pathStack.dropLast, finished := s2.finished ++ [node] }
      rw [hstk2, List.dropLast_concat]
      refine ⟨inv2.visited_nodup, ?_, inv.stack_chain, ?_, ?_, ?_⟩
      · exact inv.stack_sub.trans
          ((List.sublist_append_left _ [node]).trans ((dfsGo_visited g fuel _ s1).sublist))
      · intro x
        constructor
        · intro hx
          simp only [List.mem_append, List.mem_singleton] at hx
          rcases hx with hx | rfl
          · obtain ⟨hv, hp⟩ := (inv2.finished_iff x).mp hx
            rw [hstk2] at hp
            simp only [List.mem_append, List.mem_singleton] at hp
            push_neg at hp
            exact ⟨hv, hp.1⟩
          · exact ⟨hvis2 x (by simp [hs1]), hnstk⟩
        · intro ⟨hv, hp⟩
          by_cases hx : x = node
          · simp [hx]
          · simp only [List.mem_append, List.mem_singleton]
            left
            refine (inv2.finished_iff x).mpr ⟨hv, ?_⟩
            rw [hstk2]
            simp only [List.mem_append, List.mem_singleton]
            push_neg
            exact ⟨hp, hx⟩
      · rw [List.nodup_append]
        refine ⟨inv2.finished_nodup, List.nodup_singleton _, ?_⟩
        intro x hx hxn
        simp only [List.mem_singleton] at hxn
        subst hxn
        obtain ⟨_, hp⟩ := (inv2.finished_iff x).mp hx
        rw [hstk2] at hp
        simp at hp
      · exact inv2.cycles_ok
    | .inr [] => simpa [dfsGo] using inv
    | .inr (n :: rest) =>
      have hpre := hinr (n :: rest) rfl
      have hstep : Inv g (if n ∈ s.visited then
            (if n ∈ s.pathStack then pushCycle s n else s)
          else dfsGo g fuel (.inl n) s) := by
        by_cases hv : n ∈ s.visited
        · by_cases hp : n ∈ s.pathStack
          · simpa [hv, hp] using pushCycle_inv inv hp (hpre n (by simp))
          · simpa [hv, hp] using inv
        · simp only [hv, if_neg, Bool.false_eq_true, not_false_iff, if_false]
          exact ih (.inl n) s inv
            (by rintro node h; injection h with h; subst h; exact ⟨hv, hpre n (by simp)⟩)
            (by rintro l h; cases h)
      set s' := (if n ∈ s.visited then
            (if n ∈ s.pathStack then pushCycle s n else s)
          else dfsGo g fuel (.inl n) s) with hs'
      have hstk' : s'.pathStack = s.pathStack := by
        rw [hs']
        by_cases hv : n ∈ s.visited
        · by_cases hp : n ∈ s.pathStack <;> simp [hv, hp, pushCycle]
        · simpa [hv] using dfsGo_pathStack g fuel (.inl n) s
      show Inv g (dfsGo g fuel (.inr rest) s')
      refine ih (.inr rest) s' hstep (by simp) ?_
      rintro l hl m hm t ht
      injection hl with hl
      subst hl
      rw [hstk'] at ht
      exact hpre m (by simp [hm]) t ht

/-! ## Finishing under adequate fuel -/

lemma dfsVisit_marks (g : Graph) (fuel : Nat) (node : String) (s : DfsState) :
    node ∈ (dfsGo g (fuel + 1) (.inl node) s).visited := by
  simp only [dfsGo]
  apply dfsGo_visited_subset
  simp

lemma cntG_lt {g : Graph} {s s' : DfsState} {n : String}
    (hsub : ∀ x, x ∈ s.visited → x ∈ s'.visited)
    (hn : n ∈ s'.visited) (hnv : n ∉ s.visited) (hu : n ∈ univ g) :
    cntG g s' < cntG g s := by
  apply filter_length_strict (univ g) _ _ ?_ n hu ?_ ?_
  · intro x hx
    simp only [decide_eq_true_eq] at hx ⊢
    exact fun hm => hx (hsub x hm)
  · simpa using hnv
  · simpa using hn

/-- With adequate fuel, a visited node ends up settled and every examined
neighbor either ends up settled or a cycle has been recorded. -/
lemma dfsGo_finishing (g : Graph) :
    ∀ (fuel : Nat) (arg : String ⊕ List String) (s : DfsState),
    Inv g s →
    (∀ node, arg = .inl node → node ∉ s.visited ∧ StackTopEdge g s node ∧ node ∈ univ g ∧
      cntG g s * ((univ g).length + 1) + 1 ≤ fuel) →
    (∀ l, arg = .inr l → (∀ n ∈ l, StackTopEdge g s n ∧ n ∈ univ g) ∧
      cntG g s * ((univ g).length + 1) + l.length + 1 ≤ fuel) →
    (∀ node, arg = .inl node → node ∈ (dfsGo g fuel arg s).finished) ∧
    (∀ l, arg = .inr l → ∀ n ∈ l,
      n ∈ (dfsGo g fuel arg s).finished ∨ (dfsGo g fuel arg s).cycles ≠ []) := by
  intro fuel
  induction fuel with
  | zero =>
    intro arg s _ hinl hinr
    constructor
    · intro node harg
      obtain ⟨_, _, _, hf⟩ := hinl node harg
      omega
    · intro l harg
      obtain ⟨_, hf⟩ := hinr l harg
      omega
  | succ fuel ih =>
    intro arg s inv hinl hinr
    match arg with
    | .inl node =>
      refine ⟨?_, by rintro l h; cases h⟩
      intro node' harg
      injection harg with harg
      subst harg
      simp only [dfsGo]
      simp
    | .inr [] =>
      refine ⟨(by rintro node h; cases h), ?_⟩
      intro l harg
      injection harg with harg
      subst harg
      simp
    | .inr (n :: rest) =>
      obtain ⟨hall, hfuel⟩ := hinr (n :: rest) rfl
      have hU := hall n (by simp)
      -- facts about the state after processing the head neighbor
      set s' := (if n ∈ s.visited then
            (if n ∈ s.pathStack then pushCycle s n else s)
          else dfsGo g fuel (.inl n) s) with hs'
      have hgoal_eq : dfsGo g (fuel + 1) (.inr (n :: rest)) s = dfsGo g fuel (.inr rest) s' := by
        simp only [dfsGo]
      have hstk' : s'.pathStack = s.pathStack := by
        rw [hs']
        by_cases hv : n ∈ s.visited
        · by_cases hp : n ∈ s.pathStack <;> simp [hv, hp, pushCycle]
        · simpa [hv] using dfsGo_pathStack g fuel (.inl n) s
      have hvsub' : ∀ x, x ∈ s.visited → x ∈ s'.visited := by
        rw [hs']
        by_cases hv : n ∈ s.visited
        · by_cases hp : n ∈ s.pathStack <;> simp [hv, hp, pushCycle]
        · simpa [hv] using dfsGo_visited_subset g fuel (.inl n) s
      have hinv' : Inv g s' := by
        rw [hs']
        by_cases hv : n ∈ s.visited
        · by_cases hp : n ∈ s.pathStack
          · simpa [hv, hp] using pushCycle_inv inv hp (hU.1)
          · simpa [hv, hp] using inv
        · simp only [hv, if_neg, Bool.false_eq_true, not_false_iff, if_false]
          exact dfsGo_inv g fuel (.inl n) s inv
            (by rintro node h; injection h with h; subst h; exact ⟨hv, hU.1⟩)
            (by rintro l h; cases h)
      have hcnt' : cntG g s' ≤ cntG g s ∧ (n ∉ s.visited → cntG g s' < cntG g s) := by
        constructor
        · exact cntG_mono hvsub'
        · intro hv
          apply cntG_lt hvsub' ?_ hv hU.2
          rw [hs']
          simp only [hv, if_neg, Bool.false_eq_true, not_false_iff, if_false]
          cases fuel with
          | zero =>
            exfalso
            have h1 : 1 ≤ cntG g s := by
              have : n ∈ (univ g).filter (fun x => decide (x ∉ s.visited)) :=
                List.mem_filter.mpr ⟨hU.2, by simpa using hv⟩
              have := List.length_pos_of_mem this
              unfold cntG
              omega
            have := Nat.le_mul_of_pos_left ((univ g).length + 1) h1
            omega
          | succ fuel => exact dfsVisit_marks g fuel n s
      have hfuel_rest : cntG g s' * ((univ g).length + 1) + rest.length + 1 ≤ fuel := by
        by_cases hv : n ∈ s.visited
        · have : cntG g s' ≤ cntG g s := hcnt'.1
          have hmul : cntG g s' * ((univ g).length + 1) ≤ cntG g s * ((univ g).length + 1) :=
            Nat.mul_le_mul_right _ this
          generalize hA : cntG g s' * ((univ g).length + 1) = A at *
          generalize hB : cntG g s * ((univ g).length + 1) = B at *
          simp only [List.length_cons] at hfuel
          omega
        · have h1 : cntG g s' + 1 ≤ cntG g s := hcnt'.2 hv
          have hmul : (cntG g s' + 1) * ((univ g).length + 1) ≤
              cntG g s * ((univ g).length + 1) := Nat.mul_le_mul_right _ h1
          rw [Nat.succ_mul] at hmul
          generalize hA : cntG g s' * ((univ g).length + 1) = A at *
          generalize hB : cntG g s * ((univ g).length + 1) = B at *
          simp only [List.length_cons] at hfuel
          omega
      have hhead : n ∈ s'.finished ∨ s'.cycles ≠ [] := by
        rw [hs']
        by_cases hv : n ∈ s.visited
        · by_cases hp : n ∈ s.pathStack
          · right
            simp [hv, hp, pushCycle]
          · left
            simp only [hv, if_pos, hp, if_neg, Bool.false_eq_true, not_false_iff, if_false]
            exact (inv.finished_iff n).mpr ⟨hv, hp⟩
        · left
          simp only [hv, if_neg, Bool.false_eq_true, not_false_iff, if_false]
          have hfok : cntG g s * ((univ g).length + 1) + 1 ≤ fuel := by
            generalize hB : cntG g s * ((univ g).length + 1) = B at *
            simp only [List.length_cons] at hfuel
            omega
          exact (ih (.inl n) s inv
            (by rintro node h; injection h with h; subst h; exact ⟨hv, hU.1, hU.2, hfok⟩)
            (by rintro l h; cases h)).1 n rfl
      have hrest := ih (.inr rest) s' hinv'
        (by rintro node h; cases h)
        (by
          rintro l h
          injection h with h
          subst h
          refine ⟨?_, hfuel_rest⟩
          intro m hm
          have := hall m (by simp [hm])
          refine ⟨?_, this.2⟩
          intro t ht
          rw [hstk'] at ht
          exact this.1 t ht)
      refine ⟨(by rintro node h; cases h), ?_⟩
      intro l harg
      injection harg with harg
      subst harg
      intro m hm
      rw [hgoal_eq]
      rcases List.mem_cons.mp hm with rfl | hmr
      · rcases hhead with hfin | hcyc
        · exact Or.inl ((dfsGo_finished g fuel (.inr rest) s').sublist.mem hfin)
        · refine Or.inr ?_
          intro hempty
          obtain ⟨t, hpre⟩ := dfsGo_cycles g fuel (.inr rest) s'
          rw [hempty] at hpre
          have := List.append_eq_nil.mp hpre
          exact hcyc this.1
      · exact (hrest.2 rest rfl) m hmr

/-! ## The settling-order invariant -/

lemma indexOfStr_append_left {l : List String} (t : List String) {x : String} (hx : x ∈ l) :
    indexOfStr (l ++ t) x = indexOfStr l x := by
  induction l with
  | nil => simp at hx
  | cons a l ih =>
    by_cases ha : a = x
    · simp [indexOfStr, List.findIdx_cons, ha]
    · have hne : (decide (a = x)) = false := by simp [ha]
      rcases List.mem_cons.mp hx with rfl | hxl
      · exact absurd rfl ha
      · simp only [List.cons_append, indexOfStr, List.findIdx_cons, hne, cond_false]
        have := ih hxl
        unfold indexOfStr at this
        omega

lemma indexOfStr_append_self {l : List String} {x : String} (hx : x ∉ l) :
    indexOfStr (l ++ [x]) x = l.length := by
  induction l with
  | nil => simp [indexOfStr, List.findIdx_cons]
  | cons a l ih =>
    have ha : (decide (a = x)) = false := by
      simp only [decide_eq_false_iff_not]
      intro h
      exact hx (h ▸ List.mem_cons_self a l)
    have hxl : x ∉ l := fun h => hx (List.mem_cons_of_mem a h)
    simp only [List.cons_append, indexOfStr, List.findIdx_cons, ha, cond_false,
      List.length_cons]
    have := ih hxl
    unfold indexOfStr at this
    omega

/-- The settling-order invariant: every dependency of a settled node is itself
settled strictly earlier, unless some cycle has been recorded. -/
def RInv (g : Graph) (s : DfsState) : Prop :=
  ∀ u, u ∈ s.finished → ∀ v, v ∈ adj g u →
    s.cycles ≠ [] ∨ (v ∈ s.finished ∧ indexOfStr s.finished v < indexOfStr s.finished u)

lemma dfsGo_rinv (g : Graph) :
    ∀ (fuel : Nat) (arg : String ⊕ List String) (s : DfsState),
    Inv g s →
    (∀ node, arg = .inl node → node ∉ s.visited ∧ StackTopEdge g s node ∧ node ∈ univ g ∧
      cntG g s * ((univ g).length + 1) + 1 ≤ fuel) →
    (∀ l, arg = .inr l → (∀ n ∈ l, StackTopEdge g s n ∧ n ∈ univ g) ∧
      cntG g s * ((univ g).length + 1) + l.length + 1 ≤ fuel) →
    RInv g s → RInv g (dfsGo g fuel arg s) := by
  intro fuel
  induction fuel with
  | zero => intro arg s _ _ _ hR; simpa [dfsGo] using hR
  | succ fuel ih =>
    intro arg s inv hinl hinr hR
    match arg with
    | .inl node =>
      obtain ⟨hnv, hedge, hu, hfok⟩ := hinl node rfl
      have hnstk : node ∉ s.pathStack := fun h => hnv (inv.stack_sub.mem h)
      set s1 : DfsState :=
        { s with visited := s.visited ++ [node], pathStack := s.pathStack ++ [node] }
        with hs1
      -- the invariant for s1 (as in dfsGo_inv)
      have inv1 : Inv g s1 := by
        have := dfsGo_inv g 0 (.inl node) s inv
          (by rintro node' h; injection h with h; subst h; exact ⟨hnv, hedge⟩)
          (by rintro l h; cases h)
        -- dfsGo with fuel 0 is the identity, so redo the push by hand instead:
        clear this
        refine ⟨?_, ?_, ?_, ?_, ?_, ?_⟩
        · simpa [List.nodup_append, inv.visited_nodup] using hnv
        · exact inv.stack_sub.append (List.Sublist.refl _)
        · refine List.chain'_append.mpr ⟨inv.stack_chain, List.chain'_singleton _, ?_⟩
          intro x hx y hy
          simp only [List.head?_cons, Option.mem_def, Option.some.injEq] at hy
          exact hy ▸ hedge x hx
        · intro x
          constructor
          · intro hx
            obtain ⟨hv, hp⟩ := (inv.finished_iff x).mp hx
            refine ⟨List.mem_append_left _ hv, ?_⟩
            simp only [List.mem_append, List.mem_singleton]
            rintro (h | rfl)
            · exact hp h
            · exact hnv hv
          · intro ⟨hv, hp⟩
            simp only [List.mem_append, List.mem_singleton] at hv hp
            push_neg at hp
            rcases hv with hv | rfl
            · exact (inv.finished_iff x).mpr ⟨hv, hp.1⟩
            · exact absurd rfl hp.2
        · exact inv.finished_nodup
        · intro c hc
          obtain ⟨l, hcl, hcyc, hsub⟩ := inv.cycles_ok c hc
          exact ⟨l, hcl, hcyc, hsub.trans (List.sublist_append_left _ _)⟩
      have hpre1 : ∀ n ∈ adj g node, StackTopEdge g s1 n ∧ n ∈ univ g := by
        intro n hn
        refine ⟨?_, mem_univ_of_mem_adj hn⟩
        intro t ht
        have : s1.pathStack.getLast? = some node := by
          show (s.pathStack ++ [node]).getLast? = some node
          rw [List.getLast?_append_of_ne_nil _ (by simp)]
          rfl
        rw [this] at ht
        injection ht with ht
        subst ht
        exact hn
      have hcnt1 : cntG g s1 < cntG g s := cntG_push hu hnv
      have hfok1 : cntG g s1 * ((univ g).length + 1) + (adj g node).length + 1 ≤ fuel := by
        have h1 : cntG g s1 + 1 ≤ cntG g s := hcnt1
        have hmul : (cntG g s1 + 1) * ((univ g).length + 1) ≤
            cntG g s * ((univ g).length + 1) := Nat.mul_le_mul_right _ h1
        rw [Nat.succ_mul] at hmul
        have hadj := adj_length_le_univ g node
        generalize hA : cntG g s1 * ((univ g).length + 1) = A at *
        generalize hB : cntG g s * ((univ g).length + 1) = B at *
        omega
      have hR1 : RInv g s1 := hR
      have hR2 : RInv g (dfsGo g fuel (.inr (adj g node)) s1) :=
        ih (.inr (adj g node)) s1 inv1
          (by rintro node' h; cases h)
          (by rintro l h; injection h with h; subst h; exact ⟨hpre1, hfok1⟩)
          hR1
      have inv2 : Inv g (dfsGo g fuel (.inr (adj g node)) s1) :=
        dfsGo_inv g fuel (.inr (adj g node)) s1 inv1
          (by rintro node' h; cases h)
          (by rintro l h; injection h with h; subst h; intro n hn; exact (hpre1 n hn).1)
      have hGfin := (dfsGo_finishing g fuel (.inr (adj g node)) s1 inv1
        (by rintro node' h; cases h)
        (by rintro l h; injection h with h; subst h; exact ⟨hpre1, hfok1⟩)).2
        (adj g node) rfl
      set s2 := dfsGo g fuel (.inr (adj g node)) s1 with hs2
      have hstk2 : s2.pathStack = s.pathStack ++ [node] := dfsGo_pathStack g fuel _ s1
      have hnfin2 : node ∉ s2.finished := by
        intro h
        obtain ⟨_, hp⟩ := (inv2.finished_iff node).mp h
        rw [hstk2] at hp
        simp at hp
      show RInv g { s2 with pathStack := s2.pathStack.dropLast, finished := s2.finished ++ [node] }
      intro u hu v hv
      simp only [List.mem_append, List.mem_singleton] at hu
      by_cases hc : s2.cycles = []
      case neg => exact Or.inl hc
      case pos =>
      rcases hu with hu | hu
      · rcases hR2 u hu v hv with hcyc | ⟨hvf, hlt⟩
        · exact absurd hc hcyc
        · refine Or.inr ⟨List.mem_append_left _ hvf, ?_⟩
          rw [indexOfStr_append_left [node] hvf, indexOfStr_append_left [node] hu]
          exact hlt
      · rw [hu] at hv ⊢
        rcases hGfin v hv with hvf | hcyc
        · refine Or.inr ⟨List.mem_append_left _ hvf, ?_⟩
          rw [indexOfStr_append_left [node] hvf, indexOfStr_append_self hnfin2]
          exact (indexOfStr_spec hvf).2
        · exact absurd hc hcyc
    | .inr [] => simpa [dfsGo] using hR
    | .inr (n :: rest) =>
      obtain ⟨hall, hfuel⟩ := hinr (n :: rest) rfl
      have hU := hall n (by simp)
      set s' := (if n ∈ s.visited then
            (if n ∈ s.pathStack then pushCycle s n else s)
          else dfsGo g fuel (.inl n) s) with hs'
      have hgoal_eq : dfsGo g (fuel + 1) (.inr (n :: rest)) s = dfsGo g fuel (.inr rest) s' := by
        simp only [dfsGo]
      have hstk' : s'.pathStack = s.pathStack := by
        rw [hs']
        by_cases hv : n ∈ s.visited
        · by_cases hp : n ∈ s.pathStack <;> simp [hv, hp, pushCycle]
        · simpa [hv] using dfsGo_pathStack g fuel (.inl n) s
      have hvsub' : ∀ x, x ∈ s.visited → x ∈ s'.visited := by
        rw [hs']
        by_cases hv : n ∈ s.visited
        · by_cases hp : n ∈ s.pathStack <;> simp [hv, hp, pushCycle]
        · simpa [hv] using dfsGo_visited_subset g fuel (.inl n) s
      have hinv' : Inv g s' := by
        rw [hs']
        by_cases hv : n ∈ s.visited
        · by_cases hp : n ∈ s.pathStack
          · simpa [hv, hp] using pushCycle_inv inv hp (hU.1)
          · simpa [hv, hp] using inv
        · simp only [hv, if_neg, Bool.false_eq_true, not_false_iff, if_false]
          exact dfsGo_inv g fuel (.inl n) s inv
            (by rintro node h; injection h with h; subst h; exact ⟨hv, hU.1⟩)
            (by rintro l h; cases h)
      have hfok : n ∉ s.visited → cntG g s * ((univ g).length + 1) + 1 ≤ fuel := by
        intro _
        generalize hB : cntG g s * ((univ g).length + 1) = B at *
        simp only [List.length_cons] at hfuel
        omega
      have hR' : RInv g s' := by
        rw [hs']
        by_cases hv : n ∈ s.visited
        · by_cases hp : n ∈ s.pathStack
          · simp only [hv, if_pos, hp]
            intro u _ v _
            left
            simp [pushCycle]
          · simpa [hv, hp] using hR
        · simp only [hv, if_neg, Bool.false_eq_true, not_false_iff, if_false]
          exact ih (.inl n) s inv
            (by rintro node h; injection h with h; subst h; exact ⟨hv, hU.1, hU.2, hfok hv⟩)
            (by rintro l h; cases h)
            hR
      have hcnt' : cntG g s' ≤ cntG g s := cntG_mono hvsub'
      have hcntlt : n ∉ s.visited → cntG g s' < cntG g s := by
        intro hv
        apply cntG_lt hvsub' ?_ hv hU.2
        rw [hs']
        simp only [hv, if_neg, Bool.false_eq_true, not_false_iff, if_false]
        cases fuel with
        | zero =>
          exfalso
          have := hfok hv
          have h1 : 1 ≤ cntG g s := by
            have hmem : n ∈ (univ g).filter (fun x => decide (x ∉ s.visited)) :=
              List.mem_filter.mpr ⟨hU.2, by simpa using hv⟩
            have := List.length_pos_of_mem hmem
            unfold cntG
            omega
          have := Nat.le_mul_of_pos_left ((univ g).length + 1) h1
          omega
        | succ fuel => exact dfsVisit_marks g fuel n s
      have hfuel_rest : cntG g s' * ((univ g).length + 1) + rest.length + 1 ≤ fuel := by
        by_cases hv : n ∈ s.visited
        · have hmul : cntG g s' * ((univ g).length + 1) ≤ cntG g s * ((univ g).length + 1) :=
            Nat.mul_le_mul_right _ hcnt'
          generalize hA : cntG g s' * ((univ g).length + 1) = A at *
          generalize hB : cntG g s * ((univ g).length + 1) = B at *
          simp only [List.length_cons] at hfuel
          omega
        · have h1 : cntG g s' + 1 ≤ cntG g s := hcntlt hv
          have hmul : (cntG g s' + 1) * ((univ g).length + 1) ≤
              cntG g s * ((univ g).length + 1) := Nat.mul_le_mul_right _ h1
          rw [Nat.succ_mul] at hmul
          generalize hA : cntG g s' * ((univ g).length + 1) = A at *
          generalize hB : cntG g s * ((univ g).length + 1) = B at *
          simp only [List.length_cons] at hfuel
          omega
      rw [hgoal_eq]
      refine ih (.inr rest) s' hinv' (by rintro node h; cases h) ?_ hR'
      rintro l h
      injection h with h
      subst h
      refine ⟨?_, hfuel_rest⟩
      intro m hm
      have := hall m (by simp [hm])
      refine ⟨?_, this.2⟩
      intro t ht
      rw [hstk'] at ht
      exact this.1 t ht

/-! ## The fully run traversal -/

lemma dfsFuel_ok {g : Graph} (s : DfsState) :
    cntG g s * ((univ g).length + 1) + 1 ≤ dfsFuel g := by
  have h := cntG_le g s
  have := Nat.mul_le_mul_right ((univ g).length + 1) h
  unfold dfsFuel
  omega

lemma foldDfs_facts (g : Graph) :
    ∀ (ks : List String) (s : DfsState), (∀ k ∈ ks, k ∈ univ g) →
    Inv g s → s.pathStack = [] → RInv g s →
    Inv g (ks.foldl (fun s node =>
        if node ∈ s.visited then s else dfsVisit g (dfsFuel g) node s) s) ∧
    (ks.foldl (fun s node =>
        if node ∈ s.visited then s else dfsVisit g (dfsFuel g) node s) s).pathStack = [] ∧
    RInv g (ks.foldl (fun s node =>
        if node ∈ s.visited then s else dfsVisit g (dfsFuel g) node s) s) ∧
    (∀ k, (k ∈ ks ∨ k ∈ s.visited) → k ∈ (ks.foldl (fun s node =>
        if node ∈ s.visited then s else dfsVisit g (dfsFuel g) node s) s).visited) ∧
    s.cycles <+: (ks.foldl (fun s node =>
        if node ∈ s.visited then s else dfsVisit g (dfsFuel g) node s) s).cycles := by
  intro ks
  induction ks with
  | nil =>
    intro s _ inv hstk hR
    exact ⟨inv, hstk, hR, fun k hk => by simpa using hk, List.prefix_refl _⟩
  | cons k ks ih =>
    intro s hks inv hstk hR
    simp only [List.foldl_cons]
    have hku : k ∈ univ g := hks k (by simp)
    by_cases hkv : k ∈ s.visited
    · simp only [hkv, if_pos]
      obtain ⟨a, b, c, d, e⟩ := ih s (fun x hx => hks x (by simp [hx])) inv hstk hR
      refine ⟨a, b, c, ?_, e⟩
      intro x hx
      rcases hx with hx | hx
      · rcases List.mem_cons.mp hx with rfl | hx
        · exact d x (Or.inr hkv)
        · exact d x (Or.inl hx)
      · exact d x (Or.inr hx)
    · simp only [hkv, if_neg, Bool.false_eq_true, not_false_iff, if_false]
      have hpre_inl : ∀ node, (Sum.inl k : String ⊕ List String) = .inl node →
          node ∉ s.visited ∧ StackTopEdge g s node ∧ node ∈ univ g ∧
          cntG g s * ((univ g).length + 1) + 1 ≤ dfsFuel g := by
        rintro node h
        injection h with h
        subst h
        refine ⟨hkv, ?_, hku, dfsFuel_ok s⟩
        intro t ht
        rw [hstk] at ht
        simp at ht
      have hpre_inr : ∀ l, (Sum.inl k : String ⊕ List String) = .inr l →
          (∀ n ∈ l, StackTopEdge g s n ∧ n ∈ univ g) ∧
          cntG g s * ((univ g).length + 1) + l.length + 1 ≤ dfsFuel g := by
        rintro l h
        cases h
      have inv' : Inv g (dfsVisit g (dfsFuel g) k s) :=
        dfsGo_inv g (dfsFuel g) (.inl k) s inv
          (fun node h => ⟨(hpre_inl node h).1, (hpre_inl node h).2.1⟩)
          (by rintro l h; cases h)
      have hstk' : (dfsVisit g (dfsFuel g) k s).pathStack = [] := by
        rw [dfsVisit, dfsGo_pathStack, hstk]
      have hR' : RInv g (dfsVisit g (dfsFuel g) k s) :=
        dfsGo_rinv g (dfsFuel g) (.inl k) s inv hpre_inl hpre_inr hR
      obtain ⟨a, b, c, d, e⟩ := ih (dfsVisit g (dfsFuel g) k s)
        (fun x hx => hks x (by simp [hx])) inv' hstk' hR'
      refine ⟨a, b, c, ?_, ?_⟩
      · intro x hx
        have hkvis : k ∈ (dfsVisit g (dfsFuel g) k s).visited := by
          have hfuel := dfsFuel_ok (g := g) s
          rcases hfz : dfsFuel g with _ | f
          · rw [hfz] at hfuel; omega
          · exact dfsVisit_marks g f k s
        rcases hx with hx | hx
        · rcases List.mem_cons.mp hx with rfl | hx
          · exact d x (Or.inr hkvis)
          · exact d x (Or.inl hx)
        · exact d x (Or.inr (dfsGo_visited_subset g (dfsFuel g) (.inl k) s x hx))
      · exact (dfsGo_cycles g (dfsFuel g) (.inl k) s).trans e

lemma runDfs_facts (g : Graph) :
    Inv g (runDfs g) ∧ (runDfs g).pathStack = [] ∧ RInv g (runDfs g) ∧
    ∀ k ∈ keysOf g, k ∈ (runDfs g).visited := by
  obtain ⟨a, b, c, d, _⟩ := foldDfs_facts g (keysOf g) {}
    (fun k hk => key_mem_univ hk) (Inv.empty g) rfl
    (by intro u hu; simp at hu)
  exact ⟨a, b, c, fun k hk => d k (Or.inl hk)⟩

/-! ## Soundness and completeness of the cycle detector -/

/-- Every recorded cycle is a simple cycle of the graph, listed once and
closed by repeating its first node. -/
theorem detectCycles_sound (g : Graph) :
    ∀ c ∈ detectCycles g, ∃ l, c = l ++ [l.headD ""] ∧ IsSimpleCycle g l := by
  intro c hc
  obtain ⟨inv, _, _, _⟩ := runDfs_facts g
  obtain ⟨l, hcl, hcyc, _⟩ := inv.cycles_ok c hc
  exact ⟨l, hcl, hcyc⟩

lemma getLastD_of_ne_nil {l : List String} (h : l ≠ []) (d d' : String) :
    l.getLastD d = l.getLastD d' := by
  rw [List.getLastD_eq_getLast?, List.getLastD_eq_getLast?]
  obtain ⟨x, hx⟩ := Option.isSome_iff_exists.mp (List.getLast?_isSome.mpr h)
  rw [hx]
  rfl

/-- Every node on a chain has an outgoing edge, except possibly the last. -/
lemma chain'_out {g : Graph} : ∀ (l : List String), List.Chain' (Edge g) l →
    ∀ x ∈ l, x = l.getLastD "" ∨ ∃ y, Edge g x y := by
  intro l
  induction l with
  | nil => intro _ x hx; simp at hx
  | cons a t ih =>
    intro hch x hx
    have hcons := List.chain'_cons'.mp hch
    rcases List.mem_cons.mp hx with rfl | hxt
    · cases t with
      | nil => left; simp
      | cons b t' =>
        right
        exact ⟨b, hcons.1 b rfl⟩
    · have hne : t ≠ [] := List.ne_nil_of_mem hxt
      rcases ih hcons.2 x hxt with hlast | hout
      · left
        cases t with
        | nil => simp at hne
        | cons b t' =>
          calc x = (b :: t').getLastD "" := hlast
            _ = (b :: t').getLastD a :=
              getLastD_of_ne_nil (show (b :: t') ≠ [] by simp) "" a
            _ = (a :: b :: t').getLastD "" := (List.getLastD_cons "" a (b :: t')).symm
      · right
        exact hout

lemma simple_cycle_out {g : Graph} {l : List String} (h : IsSimpleCycle g l) :
    ∀ x ∈ l, ∃ y, Edge g x y := by
  obtain ⟨hne, _, hch, hclose⟩ := h
  intro x hx
  rcases chain'_out l hch x hx with hlast | hout
  · exact ⟨l.headD "", hlast ▸ hclose⟩
  · exact hout

lemma simple_cycle_keys {g : Graph} {l : List String} (h : IsSimpleCycle g l) :
    ∀ x ∈ l, x ∈ keysOf g := by
  intro x hx
  obtain ⟨y, hy⟩ := simple_cycle_out h x hx
  exact key_of_mem_adj hy

/-- Indices strictly descend along a chain whose edges all descend. -/
lemma chain_desc {g : Graph} {F : List String}
    (hrank : ∀ u ∈ F, ∀ v ∈ adj g u, v ∈ F ∧ indexOfStr F v < indexOfStr F u) :
    ∀ (l : List String), List.Chain' (Edge g) l → (∀ x ∈ l, x ∈ F) → l ≠ [] →
    indexOfStr F (l.getLastD "") ≤ indexOfStr F (l.headD "") := by
  intro l
  induction l with
  | nil => intro _ _ h; exact absurd rfl h
  | cons a t ih =>
    intro hch hmem _
    cases t with
    | nil => simp
    | cons b t' =>
      have hcons := List.chain'_cons.mp hch
      have hab : indexOfStr F b < indexOfStr F a :=
        (hrank a (hmem a (by simp)) b hcons.1).2
      have hrec := ih hcons.2 (fun x hx => hmem x (by simp [hx])) (by simp)
      have hlast : (a :: b :: t').getLastD "" = (b :: t').getLastD "" := by
        calc (a :: b :: t').getLastD "" = (b :: t').getLastD a :=
            List.getLastD_cons "" a (b :: t')
          _ = (b :: t').getLastD "" :=
            getLastD_of_ne_nil (show (b :: t') ≠ [] by simp) a ""
      rw [hlast]
      simp only [List.headD_cons] at hrec ⊢
      omega

/-- If the graph contains a simple cycle, the traversal records a cycle. -/
theorem detectCycles_complete {g : Graph} {l : List String}
    (hcyc : IsSimpleCycle g l) : detectCycles g ≠ [] := by
  intro hempty
  obtain ⟨inv, hstk, hR, hkeys⟩ := runDfs_facts g
  have hfin : ∀ x ∈ l, x ∈ (runDfs g).finished := by
    intro x hx
    have hk := simple_cycle_keys hcyc x hx
    have hv := hkeys x hk
    refine ((runDfs g).finished |> fun _ => ?_)
    refine (inv.finished_iff x).mpr ⟨hv, ?_⟩
    rw [hstk]
    simp
  have hrank : ∀ u ∈ (runDfs g).finished, ∀ v ∈ adj g u,
      v ∈ (runDfs g).finished ∧
      indexOfStr (runDfs g).finished v < indexOfStr (runDfs g).finished u := by
    intro u hu v hv
    rcases hR u hu v hv with hcycne | h
    · exact absurd hempty hcycne
    · exact h
  obtain ⟨hne, _, hch, hclose⟩ := hcyc
  have hdesc := chain_desc hrank l hch hfin hne
  have hheadmem : l.headD "" ∈ l := by
    cases l with
    | nil => exact absurd rfl hne
    | cons a t => simp
  have hlastmem : l.getLastD "" ∈ l := by
    cases l with
    | nil => exact absurd rfl hne
    | cons a t =>
      rw [List.getLastD_eq_getLast?, List.getLast?_eq_getLast _ (by simp)]
      simp [List.getLast_mem]
  have hstep := hrank (l.getLastD "") (hfin _ hlastmem) (l.headD "") hclose
  omega

/-! ## Deduplication -/

lemma dedupFold_spec : ∀ (cs : List (List String)) (acc : List (List String) × List String),
    acc.2 = acc.1.map cycleSignature → acc.2.Nodup →
    ∃ t, (cs.foldl dedupStep acc).1 = acc.1 ++ t ∧ t.Sublist cs ∧
      (cs.foldl dedupStep acc).2 = (cs.foldl dedupStep acc).1.map cycleSignature ∧
      (cs.foldl dedupStep acc).2.Nodup := by
  intro cs
  induction cs with
  | nil =>
    intro acc h1 h2
    exact ⟨[], by simp, List.Sublist.refl _, by simpa using h1, h2⟩
  | cons c cs ih =>
    intro acc h1 h2
    simp only [List.foldl_cons]
    by_cases hsig : cycleSignature c ∈ acc.2
    · have hstep : dedupStep acc c = acc := by simp [dedupStep, hsig]
      rw [hstep]
      obtain ⟨t, ht1, ht2, ht3, ht4⟩ := ih acc h1 h2
      exact ⟨t, ht1, ht2.cons c, ht3, ht4⟩
    · have hstep : dedupStep acc c = (acc.1 ++ [c], acc.2 ++ [cycleSignature c]) := by
        simp [dedupStep, hsig]
      rw [hstep]
      obtain ⟨t, ht1, ht2, ht3, ht4⟩ := ih (acc.1 ++ [c], acc.2 ++ [cycleSignature c])
        (by simp [h1]) (by
          rw [List.nodup_append]
          exact ⟨h2, List.nodup_singleton _, by simpa using hsig⟩)
      refine ⟨c :: t, ?_, List.cons_sublist_cons.mpr ht2, ht3, ht4⟩
      rw [ht1, List.append_assoc]
      rfl

lemma dedupCycles_sublist (cs : List (List String)) : (dedupCycles cs).Sublist cs := by
  obtain ⟨t, ht1, ht2, _, _⟩ := dedupFold_spec cs ([], []) (by simp) (by simp)
  unfold dedupCycles
  rw [ht1]
  simpa using ht2

lemma dedupCycles_sig_nodup (cs : List (List String)) :
    ((dedupCycles cs).map cycleSignature).Nodup := by
  obtain ⟨t, _, _, h3, h4⟩ := dedupFold_spec cs ([], []) (by simp) (by simp)
  unfold dedupCycles
  rw [← h3]
  exact h4

/-! ## Same node set implies same discovered cycle -/

lemma sublist_eq_filter {L : List String} (hL : L.Nodup) :
    ∀ {l : List String}, l.Sublist L → l = L.filter (fun x => decide (x ∈ l)) := by
  induction L with
  | nil => intro l h; simpa using List.sublist_nil.mp h
  | cons a L ih =>
    intro l h
    have hnodup := List.nodup_cons.mp hL
    cases h with
    | cons _ h' =>
      have ha : a ∉ l := fun hal => hnodup.1 (h'.mem hal)
      rw [List.filter_cons, if_neg (by simpa using ha)]
      exact ih hnodup.2 h'
    | cons₂ _ h' =>
      rename_i l'
      rw [List.filter_cons, if_pos (by simp)]
      have hfc : L.filter (fun x => decide (x ∈ a :: l')) =
          L.filter (fun x => decide (x ∈ l')) := by
        apply List.filter_congr
        intro x hx
        have hxa : x ≠ a := fun hxa => hnodup.1 (hxa ▸ hx)
        simp [List.mem_cons, hxa]
      rw [hfc, ← ih hnodup.2 h']

lemma headD_mem {l : List String} (h : l ≠ []) : l.headD "" ∈ l := by
  cases l with
  | nil => exact absurd rfl h
  | cons a t => simp

lemma discCycle_eq_of_same_nodes {g : Graph} {V c1 c2 : List String} (hV : V.Nodup)
    (h1 : DiscCycle g V c1) (h2 : DiscCycle g V c2)
    (hset : ∀ x, x ∈ c1 ↔ x ∈ c2) : c1 = c2 := by
  obtain ⟨l1, rfl, hc1, hs1⟩ := h1
  obtain ⟨l2, rfl, hc2, hs2⟩ := h2
  have hm1 : ∀ x, x ∈ l1 ++ [l1.headD ""] ↔ x ∈ l1 := by
    intro x
    simp only [List.mem_append, List.mem_singleton]
    constructor
    · rintro (hx | rfl)
      · exact hx
      · exact headD_mem hc1.1
    · exact Or.inl
  have hm2 : ∀ x, x ∈ l2 ++ [l2.headD ""] ↔ x ∈ l2 := by
    intro x
    simp only [List.mem_append, List.mem_singleton]
    constructor
    · rintro (hx | rfl)
      · exact hx
      · exact headD_mem hc2.1
    · exact Or.inl
  have hl : l1 = l2 := by
    have heq : ∀ x, (x ∈ l1) = (x ∈ l2) := fun x =>
      propext ((hm1 x).symm.trans ((hset x).trans (hm2 x)))
    rw [sublist_eq_filter hV hs1, sublist_eq_filter hV hs2]
    apply List.filter_congr
    intro x _
    simp only [heq x]
  rw [hl]

/-- No two cycles kept by the dedup pass have the same node set. -/
theorem dedup_distinct_node_sets (g : Graph) :
    (dedupCycles (detectCycles g)).Pairwise (fun c1 c2 => ¬ ∀ x, x ∈ c1 ↔ x ∈ c2) := by
  have hsub := dedupCycles_sublist (detectCycles g)
  have hnodup := dedupCycles_sig_nodup (detectCycles g)
  have hpw : (dedupCycles (detectCycles g)).Pairwise
      (fun c1 c2 => cycleSignature c1 ≠ cycleSignature c2) :=
    List.pairwise_map.mp hnodup
  refine List.Pairwise.imp_of_mem ?_ hpw
  intro c1 c2 h1 h2 hne hset
  obtain ⟨inv, _, _, _⟩ := runDfs_facts g
  have hd1 := inv.cycles_ok c1 (hsub.mem h1)
  have hd2 := inv.cycles_ok c2 (hsub.mem h2)
  exact hne (by rw [discCycle_eq_of_same_nodes inv.visited_nodup hd1 hd2 hset])

/-! ## Self-loops -/

lemma push_inv {g : Graph} {s : DfsState} {node : String} (inv : Inv g s)
    (hnv : node ∉ s.visited) (hedge : StackTopEdge g s node) :
    Inv g { s with visited := s.visited ++ [node], pathStack := s.pathStack ++ [node] } := by
  refine ⟨?_, ?_, ?_, ?_, ?_, ?_⟩
  · simpa [List.nodup_append, inv.visited_nodup] using hnv
  · exact inv.stack_sub.append (List.Sublist.refl _)
  · refine List.chain'_append.mpr ⟨inv.stack_chain, List.chain'_singleton _, ?_⟩
    intro x hx y hy
    simp only [List.head?_cons, Option.mem_def, Option.some.injEq] at hy
    exact hy ▸ hedge x hx
  · intro x
    constructor
    · intro hx
      obtain ⟨hv, hp⟩ := (inv.finished_iff x).mp hx
      refine ⟨List.mem_append_left _ hv, ?_⟩
      simp only [List.mem_append, List.mem_singleton]
      rintro (h | rfl)
      · exact hp h
      · exact hnv hv
    · intro ⟨hv, hp⟩
      simp only [List.mem_append, List.mem_singleton] at hv hp
      push_neg at hp
      rcases hv with hv | rfl
      · exact (inv.finished_iff x).mpr ⟨hv, hp.1⟩
      · exact absurd rfl hp.2
  · exact inv.finished_nodup
  · intro c hc
    obtain ⟨l, hcl, hcyc, hsub⟩ := inv.cycles_ok c hc
    exact ⟨l, hcl, hcyc, hsub.trans (List.sublist_append_left _ _)⟩

/-- While scanning a neighbor list that contains an already-visited, on-stack
node `A`, the slice of the path stack from `A` to the top (closed with `A`) is
recorded as a cycle. -/
lemma dfsGo_pushes_self (g : Graph) (A : String) :
    ∀ (fuel : Nat) (l : List String) (s : DfsState),
    A ∈ l → A ∈ s.visited → A ∈ s.pathStack → (∀ n ∈ l, n ∈ univ g) →
    cntG g s * ((univ g).length + 1) + l.length + 1 ≤ fuel →
    (s.pathStack.drop (indexOfStr s.pathStack A) ++ [A]) ∈
      (dfsGo g fuel (.inr l) s).cycles := by
  intro fuel
  induction fuel with
  | zero =>
    intro l s _ _ _ _ hfuel
    omega
  | succ fuel ih =>
    intro l s hAl hAv hAstk huniv hfuel
    match l, hAl with
    | n :: rest, hAl =>
      have hgoal_eq : dfsGo g (fuel + 1) (.inr (n :: rest)) s
          = dfsGo g fuel (.inr rest)
            (if n ∈ s.visited then (if n ∈ s.pathStack then pushCycle s n else s)
             else dfsGo g fuel (.inl n) s) := by
        simp only [dfsGo]
      set s' := (if n ∈ s.visited then (if n ∈ s.pathStack then pushCycle s n else s)
             else dfsGo g fuel (.inl n) s) with hs'
      have hstk' : s'.pathStack = s.pathStack := by
        rw [hs']
        by_cases hv : n ∈ s.visited
        · by_cases hp : n ∈ s.pathStack <;> simp [hv, hp, pushCycle]
        · simpa [hv] using dfsGo_pathStack g fuel (.inl n) s
      have hvsub' : ∀ x, x ∈ s.visited → x ∈ s'.visited := by
        rw [hs']
        by_cases hv : n ∈ s.visited
        · by_cases hp : n ∈ s.pathStack <;> simp [hv, hp, pushCycle]
        · simpa [hv] using dfsGo_visited_subset g fuel (.inl n) s
      by_cases hnA : n = A
      · -- the head of the list is `A` itself: the cycle is pushed right here
        subst hnA
        have hs'' : s' = pushCycle s n := by rw [hs', if_pos hAv, if_pos hAstk]
        have hmem : (s.pathStack.drop (indexOfStr s.pathStack n) ++ [n]) ∈ s'.cycles := by
          rw [hs'']
          simp [pushCycle]
        rw [hgoal_eq]
        exact (dfsGo_cycles g fuel (.inr rest) s').sublist.mem hmem
      · have hArest : A ∈ rest := by
          rcases List.mem_cons.mp hAl with h | h
          · exact absurd h.symm hnA
          · exact h
        have hcnt' : cntG g s' ≤ cntG g s := cntG_mono hvsub'
        have hcntlt : n ∉ s.visited → cntG g s' < cntG g s := by
          intro hv
          apply cntG_lt hvsub' ?_ hv (huniv n (by simp))
          rw [hs']
          simp only [hv, if_neg, Bool.false_eq_true, not_false_iff, if_false]
          cases fuel with
          | zero =>
            exfalso
            have h1 : 1 ≤ cntG g s := by
              have hmem : n ∈ (univ g).filter (fun x => decide (x ∉ s.visited)) :=
                List.mem_filter.mpr ⟨huniv n (by simp), by simpa using hv⟩
              have := List.length_pos_of_mem hmem
              unfold cntG
              omega
            have := Nat.le_mul_of_pos_left ((univ g).length + 1) h1
            omega
          | succ fuel => exact dfsVisit_marks g fuel n s
        have hfuel_rest : cntG g s' * ((univ g).length + 1) + rest.length + 1 ≤ fuel := by
          by_cases hv : n ∈ s.visited
          · have hmul : cntG g s' * ((univ g).length + 1) ≤
                cntG g s * ((univ g).length + 1) := Nat.mul_le_mul_right _ hcnt'
            generalize hA1 : cntG g s' * ((univ g).length + 1) = A1 at *
            generalize hB1 : cntG g s * ((univ g).length + 1) = B1 at *
            simp only [List.length_cons] at hfuel
            omega
          · have h1 : cntG g s' + 1 ≤ cntG g s := hcntlt hv
            have hmul : (cntG g s' + 1) * ((univ g).length + 1) ≤
                cntG g s * ((univ g).length + 1) := Nat.mul_le_mul_right _ h1
            rw [Nat.succ_mul] at hmul
            generalize hA1 : cntG g s' * ((univ g).length + 1) = A1 at *
            generalize hB1 : cntG g s * ((univ g).length + 1) = B1 at *
            simp only [List.length_cons] at hfuel
            omega
        rw [hgoal_eq]
        have := ih rest s' hArest (hvsub' A hAv) (hstk' ▸ hAstk)
          (fun m hm => huniv m (by simp [hm])) hfuel_rest
        rw [hstk'] at this
        exact this

/-- If `A` carries a self-edge and becomes visited during a call, the
length-one cycle `[A, A]` is recorded. -/
lemma dfsGo_self {g : Graph} {A : String} (hA : A ∈ adj g A) :
    ∀ (fuel : Nat) (arg : String ⊕ List String) (s : DfsState),
    Inv g s →
    (∀ node, arg = .inl node → node ∉ s.visited ∧ StackTopEdge g s node ∧ node ∈ univ g ∧
      cntG g s * ((univ g).length + 1) + 1 ≤ fuel) →
    (∀ l, arg = .inr l → (∀ n ∈ l, StackTopEdge g s n ∧ n ∈ univ g) ∧
      cntG g s * ((univ g).length + 1) + l.length + 1 ≤ fuel) →
    A ∉ s.visited → A ∈ (dfsGo g fuel arg s).visited →
    [A, A] ∈ (dfsGo g fuel arg s).cycles := by
  intro fuel
  induction fuel with
  | zero =>
    intro arg s _ _ _ hAnv hAv
    simp only [dfsGo] at hAv
    exact absurd hAv hAnv
  | succ fuel ih =>
    intro arg s inv hinl hinr hAnv hAv
    match arg with
    | .inl node =>
      obtain ⟨hnv, hedge, hu, hfok⟩ := hinl node rfl
      set s1 : DfsState :=
        { s with visited := s.visited ++ [node], pathStack := s.pathStack ++ [node] }
        with hs1
      have inv1 : Inv g s1 := push_inv inv hnv hedge
      have hpre1 : ∀ n ∈ adj g node, StackTopEdge g s1 n ∧ n ∈ univ g := by
        intro n hn
        refine ⟨?_, mem_univ_of_mem_adj hn⟩
        intro t ht
        have hlast : s1.pathStack.getLast? = some node := by
          show (s.pathStack ++ [node]).getLast? = some node
          rw [List.getLast?_append_of_ne_nil _ (by simp)]
          rfl
        rw [hlast] at ht
        injection ht with ht
        subst ht
        exact hn
      have hcnt1 : cntG g s1 < cntG g s := cntG_push hu hnv
      have hfok1 : cntG g s1 * ((univ g).length + 1) + (adj g node).length + 1 ≤ fuel := by
        have h1 : cntG g s1 + 1 ≤ cntG g s := hcnt1
        have hmul : (cntG g s1 + 1) * ((univ g).length + 1) ≤
            cntG g s * ((univ g).length + 1) := Nat.mul_le_mul_right _ h1
        rw [Nat.succ_mul] at hmul
        have hadj := adj_length_le_univ g node
        generalize hA1 : cntG g s1 * ((univ g).length + 1) = A1 at *
        generalize hB1 : cntG g s * ((univ g).length + 1) = B1 at *
        omega
      have hcycles_exit : (dfsGo g (fuel + 1) (.inl node) s).cycles
          = (dfsGo g fuel (.inr (adj g node)) s1).cycles := by
        simp only [dfsGo]
      by_cases hnode : A = node
      · subst hnode
        have hAstk1 : A ∈ s1.pathStack := by
          show A ∈ s.pathStack ++ [A]
          simp
        have hAv1 : A ∈ s1.visited := by
          show A ∈ s.visited ++ [A]
          simp
        have hAnstk : A ∉ s.pathStack := fun h => hAnv (inv.stack_sub.mem h)
        have hidx : indexOfStr s1.pathStack A = s.pathStack.length := by
          show indexOfStr (s.pathStack ++ [A]) A = s.pathStack.length
          exact indexOfStr_append_self hAnstk
        have hdrop : s1.pathStack.drop (indexOfStr s1.pathStack A) = [A] := by
          rw [hidx]
          exact List.drop_left s.pathStack [A]
        have := dfsGo_pushes_self g A fuel (adj g A) s1 hA hAv1 hAstk1
          (fun n hn => mem_univ_of_mem_adj hn) hfok1
        rw [hdrop] at this
        rw [hcycles_exit]
        exact this
      · have hAnv1 : A ∉ s1.visited := by
          show A ∉ s.visited ++ [node]
          simp only [List.mem_append, List.mem_singleton]
          rintro (h | h)
          · exact hAnv h
          · exact hnode h
        have hAv2 : A ∈ (dfsGo g fuel (.inr (adj g node)) s1).visited := by
          have : (dfsGo g (fuel + 1) (.inl node) s).visited
              = (dfsGo g fuel (.inr (adj g node)) s1).visited := by
            simp only [dfsGo]
          rw [← this]
          exact hAv
        rw [hcycles_exit]
        exact ih (.inr (adj g node)) s1 inv1
          (by rintro node' h; cases h)
          (by rintro l h; injection h with h; subst h; exact ⟨hpre1, hfok1⟩)
          hAnv1 hAv2
    | .inr [] =>
      simp only [dfsGo] at hAv
      exact absurd hAv hAnv
    | .inr (n :: rest) =>
      obtain ⟨hall, hfuel⟩ := hinr (n :: rest) rfl
      have hU := hall n (by simp)
      set s' := (if n ∈ s.visited then
            (if n ∈ s.pathStack then pushCycle s n else s)
          else dfsGo g fuel (.inl n) s) with hs'
      have hgoal_eq : dfsGo g (fuel + 1) (.inr (n :: rest)) s = dfsGo g fuel (.inr rest) s' := by
        simp only [dfsGo]
      have hstk' : s'.pathStack = s.pathStack := by
        rw [hs']
        by_cases hv : n ∈ s.visited
        · by_cases hp : n ∈ s.pathStack <;> simp [hv, hp, pushCycle]
        · simpa [hv] using dfsGo_pathStack g fuel (.inl n) s
      have hvsub' : ∀ x, x ∈ s.visited → x ∈ s'.visited := by
        rw [hs']
        by_cases hv : n ∈ s.visited
        · by_cases hp : n ∈ s.pathStack <;> simp [hv, hp, pushCycle]
        · simpa [hv] using dfsGo_visited_subset g fuel (.inl n) s
      have hinv' : Inv g s' := by
        rw [hs']
        by_cases hv : n ∈ s.visited
        · by_cases hp : n ∈ s.pathStack
          · simpa [hv, hp] using pushCycle_inv inv hp (hU.1)
          · simpa [hv, hp] using inv
        · simp only [hv, if_neg, Bool.false_eq_true, not_false_iff, if_false]
          exact dfsGo_inv g fuel (.inl n) s inv
            (by rintro node h; injection h with h; subst h; exact ⟨hv, hU.1⟩)
            (by rintro l h; cases h)
      have hfok : n ∉ s.visited → cntG g s * ((univ g).length + 1) + 1 ≤ fuel := by
        intro _
        generalize hB1 : cntG g s * ((univ g).length + 1) = B1 at *
        simp only [List.length_cons] at hfuel
        omega
      have hcnt' : cntG g s' ≤ cntG g s := cntG_mono hvsub'
      have hcntlt : n ∉ s.visited → cntG g s' < cntG g s := by
        intro hv
        apply cntG_lt hvsub' ?_ hv hU.2
        rw [hs']
        simp only [hv, if_neg, Bool.false_eq_true, not_false_iff, if_false]
        cases fuel with
        | zero =>
          exfalso
          have := hfok hv
          have h1 : 1 ≤ cntG g s := by
            have hmem : n ∈ (univ g).filter (fun x => decide (x ∉ s.visited)) :=
              List.mem_filter.mpr ⟨hU.2, by simpa using hv⟩
            have := List.length_pos_of_mem hmem
            unfold cntG
            omega
          have := Nat.le_mul_of_pos_left ((univ g).length + 1) h1
          omega
        | succ fuel => exact dfsVisit_marks g fuel n s
      have hfuel_rest : cntG g s' * ((univ g).length + 1) + rest.length + 1 ≤ fuel := by
        by_cases hv : n ∈ s.visited
        · have hmul : cntG g s' * ((univ g).length + 1) ≤
              cntG g s * ((univ g).length + 1) := Nat.mul_le_mul_right _ hcnt'
          generalize hA1 : cntG g s' * ((univ g).length + 1) = A1 at *
          generalize hB1 : cntG g s * ((univ g).length + 1) = B1 at *
          simp only [List.length_cons] at hfuel
          omega
        · have h1 : cntG g s' + 1 ≤ cntG g s := hcntlt hv
          have hmul : (cntG g s' + 1) * ((univ g).length + 1) ≤
              cntG g s * ((univ g).length + 1) := Nat.mul_le_mul_right _ h1
          rw [Nat.succ_mul] at hmul
          generalize hA1 : cntG g s' * ((univ g).length + 1) = A1 at *
          generalize hB1 : cntG g s * ((univ g).length + 1) = B1 at *
          simp only [List.length_cons] at hfuel
          omega
      rw [hgoal_eq] at hAv ⊢
      by_cases hAv' : A ∈ s'.visited
      · -- `A` was visited while processing the head neighbor
        have hncase : n ∉ s.visited := by
          intro hv
          apply hAnv
          revert hAv'
          rw [hs']
          by_cases hp : n ∈ s.pathStack <;> simp [hv, hp, pushCycle]
        have hs'' : s' = dfsGo g fuel (.inl n) s := by
          rw [hs', if_neg (by simpa using hncase)]
        have hcycmem : [A, A] ∈ s'.cycles := by
          rw [hs'']
          exact ih (.inl n) s inv
            (by rintro node h; injection h with h; subst h;
                exact ⟨hncase, hU.1, hU.2, hfok hncase⟩)
            (by rintro l h; cases h)
            hAnv (hs'' ▸ hAv')
        exact (dfsGo_cycles g fuel (.inr rest) s').sublist.mem hcycmem
      · exact ih (.inr rest) s' hinv'
          (by rintro node h; cases h)
          (by
            rintro l h
            injection h with h
            subst h
            refine ⟨?_, hfuel_rest⟩
            intro m hm
            have := hall m (by simp [hm])
            refine ⟨?_, this.2⟩
            intro t ht
            rw [hstk'] at ht
            exact this.1 t ht)
          hAv' hAv

lemma foldDfs_cycles_mono (g : Graph) : ∀ (ks : List String) (s : DfsState),
    s.cycles <+: (ks.foldl (fun s node =>
      if node ∈ s.visited then s else dfsVisit g (dfsFuel g) node s) s).cycles := by
  intro ks
  induction ks with
  | nil => intro s; simp
  | cons k ks ih =>
    intro s
    simp only [List.foldl_cons]
    by_cases hkv : k ∈ s.visited
    · rw [if_pos hkv]
      exact ih s
    · rw [if_neg hkv]
      exact (dfsGo_cycles g (dfsFuel g) (.inl k) s).trans (ih _)

/-- A self-edge always yields the recorded length-one cycle `[A, A]`. -/
theorem detectCycles_self_loop {g : Graph} {A : String} (hA : A ∈ adj g A) :
    [A, A] ∈ detectCycles g := by
  have hkey : A ∈ keysOf g := key_of_mem_adj hA
  -- fold-level argument over the keys
  suffices h : ∀ (ks : List String) (s : DfsState), (∀ k ∈ ks, k ∈ univ g) →
      Inv g s → s.pathStack = [] → A ∉ s.visited →
      A ∈ (ks.foldl (fun s node =>
        if node ∈ s.visited then s else dfsVisit g (dfsFuel g) node s) s).visited →
      [A, A] ∈ (ks.foldl (fun s node =>
        if node ∈ s.visited then s else dfsVisit g (dfsFuel g) node s) s).cycles by
    obtain ⟨_, _, _, hkeys⟩ := runDfs_facts g
    exact h (keysOf g) {} (fun k hk => key_mem_univ hk) (Inv.empty g) rfl (by simp)
      (hkeys A hkey)
  intro ks
  induction ks with
  | nil =>
    intro s _ _ _ hAnv hAv
    simp only [List.foldl_nil] at hAv
    exact absurd hAv hAnv
  | cons k ks ih =>
    intro s hks inv hstk hAnv hAv
    simp only [List.foldl_cons] at hAv ⊢
    by_cases hkv : k ∈ s.visited
    · rw [if_pos hkv] at hAv ⊢
      exact ih s (fun x hx => hks x (by simp [hx])) inv hstk hAnv hAv
    · rw [if_neg hkv] at hAv ⊢
      have hpre_inl : ∀ node, (Sum.inl k : String ⊕ List String) = .inl node →
          node ∉ s.visited ∧ StackTopEdge g s node ∧ node ∈ univ g ∧
          cntG g s * ((univ g).length + 1) + 1 ≤ dfsFuel g := by
        rintro node h
        injection h with h
        subst h
        refine ⟨hkv, ?_, hks k (by simp), dfsFuel_ok s⟩
        intro t ht
        rw [hstk] at ht
        simp at ht
      have hinv' : Inv g (dfsVisit g (dfsFuel g) k s) :=
        dfsGo_inv g (dfsFuel g) (.inl k) s inv
          (fun node h => ⟨(hpre_inl node h).1, (hpre_inl node h).2.1⟩)
          (by rintro l h; cases h)
      have hstk' : (dfsVisit g (dfsFuel g) k s).pathStack = [] := by
        rw [dfsVisit, dfsGo_pathStack, hstk]
      by_cases hAv' : A ∈ (dfsVisit g (dfsFuel g) k s).visited
      · have hcyc : [A, A] ∈ (dfsVisit g (dfsFuel g) k s).cycles :=
          dfsGo_self hA (dfsFuel g) (.inl k) s inv hpre_inl
            (by rintro l h; cases h) hAnv hAv'
        exact (foldDfs_cycles_mono g ks _).sublist.mem hcyc
      · exact ih (dfsVisit g (dfsFuel g) k s)
          (fun x hx => hks x (by simp [hx])) hinv' hstk' hAv' hAv

/-! ## Graph-construction lemmas -/

lemma mem_setAdd {l : List String} {x y : String} : y ∈ setAdd l x ↔ y ∈ l ∨ y = x := by
  unfold setAdd
  by_cases hx : x ∈ l
  · simp only [hx, if_pos]
    constructor
    · exact Or.inl
    · rintro (h | rfl)
      · exact h
      · exact hx
  · simp [hx]

lemma hasKey_iff_mem_keys {g : Graph} {k : String} :
    hasKey g k = true ↔ k ∈ keysOf g := by
  unfold hasKey keysOf
  constructor
  · intro h
    obtain ⟨e, he⟩ := Option.isSome_iff_exists.mp h
    have hp := List.find?_some he
    simp only [decide_eq_true_eq] at hp
    exact hp ▸ List.mem_map_of_mem _ (List.mem_of_find?_eq_some he)
  · intro h
    obtain ⟨e, he, rfl⟩ := List.mem_map.mp h
    cases hf : g.find? (fun q => decide (q.1 = e.1)) with
    | none =>
      exact absurd (List.find?_eq_none.mp hf e he) (by simp)
    | some q => simp

lemma keysOf_addEdge (g : Graph) (u v : String) : keysOf (addEdge g u v) = keysOf g := by
  unfold keysOf addEdge
  rw [List.map_map]
  apply List.map_congr_left
  intro e _
  by_cases he : e.1 = u <;> simp [he]

lemma adj_cons (e : String × List String) (g : Graph) (x : String) :
    adj (e :: g) x = if e.1 = x then e.2 else adj g x := by
  unfold adj
  by_cases hex : e.1 = x
  · rw [List.find?_cons_of_pos _ (by simpa using hex), if_pos hex]
  · rw [List.find?_cons_of_neg _ (by simpa using hex), if_neg hex]

lemma addEdge_cons (e : String × List String) (g : Graph) (u v : String) :
    addEdge (e :: g) u v
      = (if e.1 = u then (e.1, setAdd e.2 v) else e) :: addEdge g u v := by
  unfold addEdge
  simp

lemma mem_adj_addEdge {g : Graph} {u v x y : String}
    (h : y ∈ adj (addEdge g u v) x) : y ∈ adj g x ∨ (x = u ∧ y = v) := by
  induction g with
  | nil => simp [addEdge, adj] at h
  | cons e g ih =>
    rw [addEdge_cons] at h
    by_cases heu : e.1 = u
    · rw [if_pos heu, adj_cons] at h
      by_cases hex : e.1 = x
      · simp only [hex, if_pos] at h
        rcases mem_setAdd.mp h with h | rfl
        · rw [adj_cons, if_pos hex]
          exact Or.inl h
        · exact Or.inr ⟨hex ▸ heu.symm ▸ rfl, rfl⟩
      · simp only [hex, if_neg, Bool.false_eq_true, not_false_iff, if_false] at h
        rcases ih h with h' | h'
        · rw [adj_cons, if_neg hex]
          exact Or.inl h'
        · exact Or.inr h'
    · rw [if_neg heu, adj_cons] at h
      by_cases hex : e.1 = x
      · rw [if_pos hex] at h
        rw [adj_cons, if_pos hex]
        exact Or.inl h
      · rw [if_neg hex] at h
        rcases ih h with h' | h'
        · rw [adj_cons, if_neg hex]
          exact Or.inl h'
        · exact Or.inr h'

lemma mem_adj_ensureKey {g : Graph} {k x y : String}
    (h : y ∈ adj (ensureKey g k) x) : y ∈ adj g x := by
  unfold ensureKey at h
  by_cases hk : hasKey g k
  · rwa [if_pos hk] at h
  · rw [if_neg hk] at h
    unfold adj at h ⊢
    rw [List.find?_append] at h
    cases hf : g.find? (fun q => decide (q.1 = x)) with
    | some e =>
      rw [hf] at h
      simpa using h
    | none =>
      rw [hf] at h
      simp only [Option.none_or] at h
      by_cases hkx : k = x
      · simp [hkx] at h
      · simp [hkx] at h

lemma keysOf_ensureKey_subset {g : Graph} {k x : String}
    (h : x ∈ keysOf (ensureKey g k)) : x ∈ keysOf g ∨ x = k := by
  unfold ensureKey at h
  by_cases hk : hasKey g k
  · rw [if_pos hk] at h
    exact Or.inl h
  · rw [if_neg hk] at h
    unfold keysOf at h
    rw [List.map_append] at h
    rcases List.mem_append.mp h with h | h
    · exact Or.inl h
    · simp at h
      exact Or.inr h

/-- Membership in the adjacency sets after the per-file dependency fold. -/
lemma mem_adj_depsFold (files : List SFile) (u : String) :
    ∀ (deps : List String) (g0 : Graph) (x y : String),
    y ∈ adj (deps.foldl (fun g dep => addEdge g u (resolveDep files dep)) g0) x →
    y ∈ adj g0 x ∨ ∃ d ∈ deps, x = u ∧ y = resolveDep files d := by
  intro deps
  induction deps with
  | nil => intro g0 x y h; exact Or.inl h
  | cons d deps ih =>
    intro g0 x y h
    simp only [List.foldl_cons] at h
    rcases ih _ x y h with h' | ⟨d', hd', hx, hy⟩
    · rcases mem_adj_addEdge h' with h'' | ⟨hx, hy⟩
      · exact Or.inl h''
      · exact Or.inr ⟨d, by simp, hx, hy⟩
    · exact Or.inr ⟨d', by simp [hd'], hx, hy⟩

lemma keysOf_depsFold (files : List SFile) (u : String) :
    ∀ (deps : List String) (g0 : Graph),
    keysOf (deps.foldl (fun g dep => addEdge g u (resolveDep files dep)) g0) = keysOf g0 := by
  intro deps
  induction deps with
  | nil => intro g0; rfl
  | cons d deps ih =>
    intro g0
    simp only [List.foldl_cons]
    rw [ih, keysOf_addEdge]

/-- Every adjacency entry of the built graph originates from a dependency
extracted from one of the files, resolved by `resolveDep`. -/
lemma mem_adj_buildFold (files : List SFile) :
    ∀ (fs : List SFile) (g0 : Graph) (x y : String),
    y ∈ adj (fs.foldl (fun graph file =>
      let normalizedPath := normalizePath file.path
      let deps := extractDependencies file.code (langOrDefault file.language) file.path
      let graph := ensureKey graph normalizedPath
      deps.foldl (fun g dep => addEdge g normalizedPath (resolveDep files dep)) graph) g0) x →
    y ∈ adj g0 x ∨ ∃ f ∈ fs, x = normalizePath f.path ∧
      ∃ d ∈ extractDependencies f.code (langOrDefault f.language) f.path,
        y = resolveDep files d := by
  intro fs
  induction fs with
  | nil => intro g0 x y h; exact Or.inl h
  | cons f fs ih =>
    intro g0 x y h
    simp only [List.foldl_cons] at h
    rcases ih _ x y h with h' | ⟨f', hf', hx, hd⟩
    · rcases mem_adj_depsFold files _ _ _ x y h' with h'' | ⟨d, hd, hx, hy⟩
      · exact Or.inl (mem_adj_ensureKey h'')
      · exact Or.inr ⟨f, by simp, hx, d, hd, hy⟩
    · exact Or.inr ⟨f', by simp [hf'], hx, hd⟩

theorem buildGraph_edge_origin {files : List SFile} {x y : String}
    (h : y ∈ adj (buildDependencyGraph files) x) :
    ∃ f ∈ files, x = normalizePath f.path ∧
      ∃ d ∈ extractDependencies f.code (langOrDefault f.language) f.path,
        y = resolveDep files d := by
  rcases mem_adj_buildFold files files [] x y h with h' | h'
  · simp [adj] at h'
  · exact h'

lemma keysOf_buildFold (files : List SFile) :
    ∀ (fs : List SFile) (g0 : Graph) (k : String),
    k ∈ keysOf (fs.foldl (fun graph file =>
      let normalizedPath := normalizePath file.path
      let deps := extractDependencies file.code (langOrDefault file.language) file.path
      let graph := ensureKey graph normalizedPath
      deps.foldl (fun g dep => addEdge g normalizedPath (resolveDep files dep)) graph) g0) →
    k ∈ keysOf g0 ∨ ∃ f ∈ fs, normalizePath f.path = k := by
  intro fs
  induction fs with
  | nil => intro g0 k h; exact Or.inl h
  | cons f fs ih =>
    intro g0 k h
    simp only [List.foldl_cons] at h
    rcases ih _ k h with h' | ⟨f', hf', hk⟩
    · rw [keysOf_depsFold] at h'
      rcases keysOf_ensureKey_subset h' with h'' | h''
      · exact Or.inl h''
      · exact Or.inr ⟨f, by simp, h''.symm⟩
    · exact Or.inr ⟨f', by simp [hf'], hk⟩

theorem hasKey_buildGraph {files : List SFile} {k : String}
    (h : hasKey (buildDependencyGraph files) k = true) :
    ∃ f ∈ files, normalizePath f.path = k := by
  rcases keysOf_buildFold files files [] k (hasKey_iff_mem_keys.mp h) with h' | h'
  · simp [keysOf] at h'
  · exact h'

/-! ## Every extracted dependency originates from a dot-relative literal -/

lemma strStartsWith_dot_cons (t : List Char) : strStartsWith ⟨'.' :: t⟩ "." = true := by
  show List.isPrefixOf ".".data ('.' :: t) = true
  have hd : ".".data = ['.'] := by decide
  rw [hd]
  simp [List.isPrefixOf]

lemma scanPyFrom_dot : ∀ {cs : List Char} {cap : String}, scanPyFrom cs = some cap →
    strStartsWith cap "." = true := by
  intro cs
  induction cs with
  | nil => intro cap h; simp [scanPyFrom] at h
  | cons c rest ih =>
    intro cap h
    unfold scanPyFrom at h
    cases htry : tryPyFromAt (c :: rest) with
    | some cap' =>
      rw [htry] at h
      injection h with h
      subst h
      exact strStartsWith_dot_cons cap'
    | none =>
      rw [htry] at h
      exact ih h

lemma scanPyImport_dot : ∀ {cs : List Char} {cap : String}, scanPyImport cs = some cap →
    strStartsWith cap "." = true := by
  intro cs
  induction cs with
  | nil => intro cap h; simp [scanPyImport] at h
  | cons c rest ih =>
    intro cap h
    unfold scanPyImport at h
    cases htry : tryPyImportAt (c :: rest) with
    | some cap' =>
      rw [htry] at h
      injection h with h
      subst h
      exact strStartsWith_dot_cons cap'
    | none =>
      rw [htry] at h
      exact ih h

/-- On every extraction path, every produced dependency candidate derives from
a literal module reference that begins with a dot: on the structural path it
is that literal resolved against the referencing directory, on the fallback
and Python paths it is the literal itself. -/
theorem extractDependencies_relative_origin (code : Code) (language filePath : String) :
    ∀ d ∈ extractDependencies code language filePath,
    ∃ raw, strStartsWith raw "." = true ∧
      (d = resolvePath (dirname filePath) raw ∨ d = raw) := by
  intro d hd
  unfold extractDependencies at hd
  by_cases hjs : language = "javascript" || language = "typescript"
  · rw [if_pos hjs] at hd
    cases hast : code.ast with
    | some ast =>
      rw [hast] at hd
      obtain ⟨dep, hdep, rfl⟩ := List.mem_map.mp hd
      obtain ⟨_, hstart⟩ := List.mem_filter.mp hdep
      exact ⟨dep, hstart, Or.inl rfl⟩
    | none =>
      rw [hast] at hd
      obtain ⟨_, hstart⟩ := List.mem_filter.mp hd
      exact ⟨d, hstart, Or.inr rfl⟩
  · rw [if_neg hjs] at hd
    by_cases hpy : language = "python"
    · rw [if_pos hpy] at hd
      unfold extractDependenciesPython at hd
      obtain ⟨line, _, hmem⟩ := List.mem_flatMap.mp hd
      rcases List.mem_append.mp hmem with hmem | hmem
      · cases hscan : scanPyFrom line.text.data with
        | some cap =>
          rw [hscan] at hmem
          simp only [List.mem_singleton] at hmem
          refine ⟨d, ?_, Or.inr rfl⟩
          rw [hmem]
          exact scanPyFrom_dot hscan
        | none => rw [hscan] at hmem; simp at hmem
      · cases hscan : scanPyImport line.text.data with
        | some cap =>
          rw [hscan] at hmem
          simp only [List.mem_singleton] at hmem
          refine ⟨d, ?_, Or.inr rfl⟩
          rw [hmem]
          exact scanPyImport_dot hscan
        | none => rw [hscan] at hmem; simp at hmem
    · rw [if_neg hpy] at hd
      simp at hd

/-! ## Facts about the reported issues -/

lemma unusedFold_mem (allImports : List String) :
    ∀ (entries : List (String × List ExpLoc)) (issues0 : List Issue) (i : Issue),
    i ∈ entries.foldl (unusedStep allImports) issues0 →
    i ∈ issues0 ∨ ∃ name loc, name ≠ "default" ∧ name ∉ allImports ∧
      i = unusedIssue name loc := by
  intro entries
  induction entries with
  | nil => intro issues0 i h; exact Or.inl h
  | cons e entries ih =>
    intro issues0 i h
    simp only [List.foldl_cons] at h
    rcases ih _ i h with h' | h'
    · unfold unusedStep at h'
      by_cases hd : e.1 = "default"
      · rw [if_pos hd] at h'
        exact Or.inl h'
      · rw [if_neg hd] at h'
        by_cases hi : e.1 ∈ allImports
        · rw [if_pos hi] at h'
          exact Or.inl h'
        · rw [if_neg hi] at h'
          rcases List.mem_append.mp h' with h'' | h''
          · exact Or.inl h''
          · obtain ⟨loc, _, rfl⟩ := List.mem_map.mp h''
            exact Or.inr ⟨e.1, loc, hd, hi, rfl⟩
    · exact Or.inr h'

lemma unusedDetect_mem {files : List SFile} {i : Issue} (h : i ∈ unusedDetect files) :
    i.kind = "structural" ∧ i.severity = "warning" ∧ i.rule = "unused-export" ∧
    ∃ name, i.exportName = some name ∧ name ≠ "default" := by
  unfold unusedDetect at h
  rcases unusedFold_mem _ _ _ _ h with h' | ⟨name, loc, hname, _, rfl⟩
  · simp at h'
  · exact ⟨rfl, rfl, rfl, name, rfl, hname⟩

lemma circularDetect_mem {files : List SFile} {i : Issue} (h : i ∈ circularDetect files) :
    i.kind = "structural" ∧ i.severity = "error" ∧ i.rule = "circular-dependency" ∧
    i.line = 1 ∧ ∃ c, i.cycle = some c ∧ i.file = (c.head?).getD "" ∧
      c ∈ dedupCycles (detectCycles (buildDependencyGraph files)) := by
  unfold circularDetect at h
  obtain ⟨p, hp, rfl⟩ := List.mem_map.mp h
  exact ⟨rfl, rfl, rfl, rfl, p.2, rfl, rfl, List.snd_mem_of_mem_enum hp⟩

lemma analyzeProject_mem {files : List SFile} {i : Issue} :
    (i ∈ CrossFile.analyzeProject files) ↔
      (i ∈ unusedDetect files ∨ i ∈ circularDetect files) := by
  unfold CrossFile.analyzeProject
  rw [(List.perm_insertionSort issueLe _).mem_iff, List.mem_append]

lemma analyzeProject_sorted_le (files : List SFile) :
    List.Sorted issueLe (CrossFile.analyzeProject files) :=
  List.sorted_insertionSort issueLe _

/-! ## Remaining auxiliaries for the claims -/

lemma mem_closed_cycle_iff {l : List String} (hne : l ≠ []) (x : String) :
    x ∈ l ++ [l.headD ""] ↔ x ∈ l := by
  simp only [List.mem_append, List.mem_singleton]
  constructor
  · rintro (hx | rfl)
    · exact hx
    · exact headD_mem hne
  · exact Or.inl

lemma dedupCycles_eq_nil_iff (cs : List (List String)) :
    dedupCycles cs = [] ↔ cs = [] := by
  constructor
  · intro h
    cases cs with
    | nil => rfl
    | cons c rest =>
      exfalso
      unfold dedupCycles at h
      rw [List.foldl_cons] at h
      have hstep : dedupStep ([], []) c = ([c], [cycleSignature c]) := by
        simp [dedupStep]
      rw [hstep] at h
      obtain ⟨t, ht1, _, _, _⟩ := dedupFold_spec rest ([c], [cycleSignature c])
        (by simp) (by simp)
      rw [ht1] at h
      simp at h
  · intro h
    rw [h]
    rfl

lemma nodeSetB_of_forall {c d : List String} (h : ∀ x, x ∈ c ↔ x ∈ d) :
    (c.all (fun x => decide (x ∈ d)) && d.all (fun x => decide (x ∈ c))) = true := by
  simp only [Bool.and_eq_true, List.all_eq_true, decide_eq_true_eq]
  exact ⟨fun x hx => (h x).mp hx, fun x hx => (h x).mpr hx⟩

/-- No unresolved target appears in any cycle recorded on a graph where it is
a sink. -/
lemma sink_not_in_cycle {g : Graph} {x : String} (hadj : adj g x = [])
    {c : List String} (hc : c ∈ detectCycles g) : x ∉ c := by
  intro hxc
  obtain ⟨l, rfl, hcyc⟩ := detectCycles_sound g c hc
  have hxl : x ∈ l := (mem_closed_cycle_iff hcyc.1 x).mp hxc
  obtain ⟨y, hy⟩ := simple_cycle_out hcyc x hxl
  unfold Edge at hy
  rw [hadj] at hy
  simp at hy

/-! ## Claim C1 -/

/-- The dependency graph of three mutually-importing files, in which the DFS
discovers the cycles on node sets `{A,B}`, `{B,C}` and `{A,B,C}` but misses
the simple cycle `A → C → A`. -/
def claim1Graph : Graph := [("A", ["B", "C"]), ("B", ["A", "C"]), ("C", ["B", "A"])]

/-- C1, counterexample: `claim1Graph` contains the simple cycle `A → C → A`
(node set `{A, C}`), yet no cycle reported by `detectCycles` followed by
deduplication has that node set.  The detector is therefore not complete in
the per-node-set sense claimed. -/
theorem claim1_counterexample :
    IsSimpleCycle claim1Graph ["A", "C"] ∧
    ∀ c ∈ dedupCycles (detectCycles claim1Graph),
      ¬ (∀ x, x ∈ c ↔ x ∈ (["A", "C"] : List String)) := by
  refine ⟨by decide, ?_⟩
  intro c hc hset
  have hb := nodeSetB_of_forall hset
  have hlist : dedupCycles (detectCycles claim1Graph) =
      [["A", "B", "A"], ["B", "C", "B"], ["A", "B", "C", "A"]] := by decide
  rw [hlist] at hc
  simp only [List.mem_cons, List.mem_singleton, List.not_mem_nil, or_false] at hc
  rcases hc with rfl | rfl | rfl <;> exact absurd hb (by decide)

/-- C1, amended: the detector is sound and non-trivially complete at the level
of cycle existence — a graph containing a simple cycle yields at least one
reported cycle (not necessarily on the same node set), and an acyclic graph
yields none. -/
theorem claim1_theorem (g : Graph) :
    ((∃ l, IsSimpleCycle g l) → dedupCycles (detectCycles g) ≠ []) ∧
    ((∀ l, ¬ IsSimpleCycle g l) → dedupCycles (detectCycles g) = []) := by
  constructor
  · rintro ⟨l, hl⟩ hempty
    exact detectCycles_complete hl ((dedupCycles_eq_nil_iff _).mp hempty)
  · intro hacyc
    rw [dedupCycles_eq_nil_iff]
    cases hdet : detectCycles g with
    | nil => rfl
    | cons c rest =>
      exfalso
      obtain ⟨l, _, hcyc⟩ := detectCycles_sound g c (by rw [hdet]; simp)
      exact hacyc l hcyc

/-- Witness for C1: the one-node self-loop graph contains a simple cycle, and
the detector applied to it reports a nonempty cycle list. -/
theorem claim1_theorem_witness :
    dedupCycles (detectCycles [("A", ["A"])]) ≠ [] :=
  (claim1_theorem [("A", ["A"])]).1 ⟨["A"], by decide⟩

/-! ## Claim C2 -/

/-- A single file whose only reference, `./missing`, resolves to a path
(`/p/missing`) matching no file in the set. -/
def claim2File : SFile :=
  { path := "/p/a.js",
    code := { ast := some (.otherNode [.importDecl (some "./missing") [] []]) },
    language := some "javascript" }

/-- C2, counterexample: the unresolved reference `./missing` of `/p/a.js`
matches no file in the set, yet `buildDependencyGraph` does add an
adjacency-set entry for it (the dangling target `/p/missing`), contrary to
the claim that no entry is added. -/
theorem claim2_counterexample :
    extractDependencies claim2File.code "javascript" "/p/a.js" = ["/p/missing"] ∧
    ([claim2File].find? (depMatchPred (normalizePath "/p/missing"))).isNone = true ∧
    adj (buildDependencyGraph [claim2File]) "/p/a.js" = ["/p/missing"] := by
  decide

/-- C2, amended: an unresolved reference does produce an adjacency-set entry
(for its normalized candidate path), but that stored target is never a key of
the graph, has no outgoing edges, and therefore participates in no recorded
cycle. -/
theorem claim2_theorem (files : List SFile) (dep : String)
    (h : files.find? (depMatchPred (normalizePath dep)) = none) :
    resolveDep files dep = normalizePath dep ∧
    hasKey (buildDependencyGraph files) (normalizePath dep) = false ∧
    adj (buildDependencyGraph files) (normalizePath dep) = [] ∧
    ∀ c ∈ detectCycles (buildDependencyGraph files), normalizePath dep ∉ c := by
  have hnokey : hasKey (buildDependencyGraph files) (normalizePath dep) = false := by
    rw [Bool.eq_false_iff]
    intro hkey
    obtain ⟨f, hf, hfp⟩ := hasKey_buildGraph hkey
    have hnp := List.find?_eq_none.mp h f hf
    apply hnp
    unfold depMatchPred
    simp only [decide_eq_true_eq]
    exact Or.inl hfp
  have hadj : adj (buildDependencyGraph files) (normalizePath dep) = [] := by
    unfold hasKey at hnokey
    unfold adj
    cases hfind : (buildDependencyGraph files).find?
        (fun e => decide (e.1 = normalizePath dep)) with
    | none => rfl
    | some e =>
      rw [hfind] at hnokey
      simp at hnokey
  refine ⟨?_, hnokey, hadj, ?_⟩
  · simp only [resolveDep]
    rw [h]
  · intro c hc
    exact sink_not_in_cycle hadj hc

/-- Witness for C2, at the concrete unresolved candidate `/p/missing` of
`claim2File`. -/
theorem claim2_theorem_witness :
    resolveDep [claim2File] "/p/missing" = normalizePath "/p/missing" ∧
    hasKey (buildDependencyGraph [claim2File]) (normalizePath "/p/missing") = false ∧
    adj (buildDependencyGraph [claim2File]) (normalizePath "/p/missing") = [] ∧
    ∀ c ∈ detectCycles (buildDependencyGraph [claim2File]),
      normalizePath "/p/missing" ∉ c :=
  claim2_theorem [claim2File] "/p/missing" rfl

/-! ## Claim C3 -/

/-- A single file whose AST is `export default function foo() {}` (an
`ExportDefaultDeclaration` whose declaration has the identifier `foo`, at
line 3), with no imports anywhere in the project. -/
def claim3File : SFile :=
  { path := "/p/d.js",
    code := { ast := some (.otherNode [.exportDefault 3 (some "foo") none []]) },
    language := some "javascript" }

/-- C3, counterexample: the only export of the project is declared via a
default-export construct (`export default function foo() {}`, recorded with
`isDefault = true`), yet the unused-export detector emits an unused-export
issue for it — the skip applies only to the recorded name `default`, not to
every default-export construct. -/
theorem claim3_counterexample :
    extractExports claim3File.code "javascript"
      = [{ name := "foo", line := 3, kind := "default", isDefault := true }] ∧
    (unusedDetect [claim3File]).map (fun i => (i.rule, i.exportName))
      = [("unused-export", some "foo")] := by
  decide

/-- C3, amended: only exports recorded under the sentinel name `default`
(anonymous default exports — and on the regex fallback path every default
export is recorded under that name) are exempt from the unused check; no
unused-export issue ever carries the export name `default`. -/
theorem claim3_theorem (files : List SFile) (lines : List JsLineView) :
    (∀ i ∈ unusedDetect files, i.exportName ≠ some "default") ∧
    (∀ r ∈ extractExportsRegex lines, r.isDefault = true → r.name = "default") := by
  constructor
  · intro i hi
    obtain ⟨_, _, _, name, hname, hne⟩ := unusedDetect_mem hi
    rw [hname]
    intro heq
    injection heq with hne'
    exact hne hne'
  · intro r hr hdef
    unfold extractExportsRegex at hr
    obtain ⟨p, _, hmem⟩ := List.mem_flatMap.mp hr
    rcases List.mem_append.mp hmem with h | h
    · exfalso
      rcases List.mem_append.mp h with h | h
      · rcases List.mem_append.mp h with h | h
        · rcases List.mem_append.mp h with h | h
          · cases hm : p.2.expFuncName <;> rw [hm] at h <;> simp at h
            rw [h] at hdef
            simp at hdef
          · cases hm : p.2.expClassName <;> rw [hm] at h <;> simp at h
            rw [h] at hdef
            simp at hdef
        · cases hm : p.2.expVarName <;> rw [hm] at h <;> simp at h
          rw [h] at hdef
          simp at hdef
      · cases hm : p.2.expNamedRaw <;> rw [hm] at h <;> simp at h
        obtain ⟨name, _, hr2⟩ := h
        rw [← hr2] at hdef
        simp at hdef
    · rcases Bool.eq_false_or_eq_true p.2.hasExportDefault with hd | hd <;>
        rw [hd] at h <;> simp at h
      rw [h]

/-- Witness for C3: the issue emitted for `claim3File` does not carry the
export name `default`, and a fallback-scanned default-export line is recorded
under the name `default`. -/
theorem claim3_theorem_witness :
    (unusedIssue "foo" ⟨"/p/d.js", 3, "default", true⟩).exportName ≠ some "default" ∧
    ({ name := "default", line := 1, kind := "default", isDefault := true } : ExpRec).name
      = "default" :=
  ⟨(claim3_theorem [claim3File] [{ hasExportDefault := true }]).1
      (unusedIssue "foo" ⟨"/p/d.js", 3, "default", true⟩) (by decide),
    (claim3_theorem [claim3File] [{ hasExportDefault := true }]).2
      { name := "default", line := 1, kind := "default", isDefault := true }
      (by decide) rfl⟩

/-! ## Claim C4 -/

/-- A JavaScript file that fails to parse (`ast = none`) whose text contains
the line `import { x } from "./b.js"` — the fallback scanner captures
`./b.js`. -/
def claim4FallbackCode : Code :=
  { ast := none, jsLines := [{ importFromDep := some "./b.js" }] }

/-- The same import as parsed successfully by acorn. -/
def claim4AstCode : Code :=
  { ast := some (.otherNode [.importDecl (some "./b.js") [] []]) }

/-- A Python file containing `from .mod import x`. -/
def claim4PyCode : Code := { pyLines := [{ text := "from .mod import x" }] }

/-- C4 (code bug): on the structural path the relative reference `./b.js` of
`/proj/a.js` is resolved against the referencing file directory (yielding
`/proj/b.js`), but on the regex-fallback path the raw relative string is
returned unresolved, and the Python path likewise returns the raw dotted
module reference — so the candidate used for graph construction is *not* the
absolute path on those extraction paths. -/
theorem claim4_theorem :
    extractDependencies claim4FallbackCode "javascript" "/proj/a.js" = ["./b.js"] ∧
    resolvePath (dirname "/proj/a.js") "./b.js" = "/proj/b.js" ∧
    extractDependencies claim4AstCode "javascript" "/proj/a.js" = ["/proj/b.js"] ∧
    extractDependencies claim4PyCode "python" "/p/m.py" = [".mod"] := by
  decide

/-! ## Claim C5 -/

/-- C5: after deduplication, no two reported circular-dependency issues carry
cycles with the same node set — two discovered cycles visiting the same set
of nodes are reported as one finding. -/
theorem claim5_theorem (files : List SFile) :
    List.Pairwise (fun i1 i2 => ∀ c1 c2, i1.cycle = some c1 → i2.cycle = some c2 →
      ¬ (∀ x, x ∈ c1 ↔ x ∈ c2)) (circularDetect files) := by
  unfold circularDetect
  have hpw := dedup_distinct_node_sets (buildDependencyGraph files)
  rw [← List.enum_map_snd (dedupCycles (detectCycles (buildDependencyGraph files)))] at hpw
  have hpw2 := List.pairwise_map.mp hpw
  refine List.pairwise_map.mpr (hpw2.imp ?_)
  intro p q hpq c1 c2 hc1 hc2 hset
  have h1 : c1 = p.2 := by
    have : (circularIssue p).cycle = some p.2 := rfl
    rw [this] at hc1
    injection hc1 with h
    exact h.symm
  have h2 : c2 = q.2 := by
    have : (circularIssue q).cycle = some q.2 := rfl
    rw [this] at hc2
    injection hc2 with h
    exact h.symm
  subst h1
  subst h2
  exact hpq hset

/-! ## Claim C6 -/

/-- C6: in the structural list returned by the project analysis, every
unused-export issue has severity `warning`, every circular-dependency issue
has severity `error` (and no other severity occurs), and the list is sorted
by severity rank — `error` strictly before `warning` — with issues of equal
severity ordered by their reporting-file path. -/
theorem claim6_theorem (files : List SFile) :
    (Main.analyzeProject files).structural.Forall (fun i =>
      (i.rule = "unused-export" → i.severity = "warning") ∧
      (i.rule = "circular-dependency" → i.severity = "error") ∧
      (i.severity = "error" ∨ i.severity = "warning")) ∧
    List.Pairwise (fun a b => severityRank a.severity < severityRank b.severity ∨
      (a.severity = b.severity ∧ a.file ≤ b.file))
      (Main.analyzeProject files).structural := by
  have hmem : ∀ i ∈ (Main.analyzeProject files).structural,
      (i.severity = "warning" ∧ i.rule = "unused-export") ∨
      (i.severity = "error" ∧ i.rule = "circular-dependency") := by
    intro i hi
    rcases analyzeProject_mem.mp hi with h | h
    · obtain ⟨_, hs, hr, _⟩ := unusedDetect_mem h
      exact Or.inl ⟨hs, hr⟩
    · obtain ⟨_, hs, hr, _⟩ := circularDetect_mem h
      exact Or.inr ⟨hs, hr⟩
  constructor
  · rw [List.forall_iff_forall_mem]
    intro i hi
    rcases hmem i hi with ⟨hs, hr⟩ | ⟨hs, hr⟩
    · exact ⟨fun _ => hs, fun hc => absurd (hr.symm.trans hc) (by decide), Or.inr hs⟩
    · exact ⟨fun hu => absurd (hr.symm.trans hu) (by decide), fun _ => hs, Or.inl hs⟩
  · have hpw : List.Pairwise issueLe (Main.analyzeProject files).structural :=
      analyzeProject_sorted_le files
    refine hpw.imp_of_mem ?_
    intro a b ha hb hab
    rcases hab with h | ⟨hrk, hf⟩
    · exact Or.inl h
    · refine Or.inr ⟨?_, hf⟩
      rcases hmem a ha with ⟨hsa, _⟩ | ⟨hsa, _⟩ <;>
        rcases hmem b hb with ⟨hsb, _⟩ | ⟨hsb, _⟩ <;>
        rw [hsa, hsb] <;> rw [hsa, hsb] at hrk <;>
        first
          | rfl
          | exact absurd hrk (by decide)

/-! ## Claim C7 -/

/-- A file `/p/a.js` importing `./b.js`, which resolves to `claim7FileB`. -/
def claim7FileA : SFile :=
  { path := "/p/a.js",
    code := { ast := some (.otherNode [.importDecl (some "./b.js") [] []]) },
    language := some "javascript" }

/-- A file `/p/b.js` importing `./a.js` back. -/
def claim7FileB : SFile :=
  { path := "/p/b.js",
    code := { ast := some (.otherNode [.importDecl (some "./a.js") [] []]) },
    language := some "javascript" }

/-- C7: every edge of the dependency graph originates from a dependency
record whose literal module-path text begins with a dot, on every extraction
path — a non-relative reference never creates a graph edge. -/
theorem claim7_theorem (files : List SFile) (u v : String)
    (h : v ∈ adj (buildDependencyGraph files) u) :
    ∃ f ∈ files, u = normalizePath f.path ∧
      ∃ raw, strStartsWith raw "." = true ∧
        (v = resolveDep files (resolvePath (dirname f.path) raw) ∨
         v = resolveDep files raw) := by
  obtain ⟨f, hf, hu, d, hd, hv⟩ := buildGraph_edge_origin h
  obtain ⟨raw, hraw, hcase⟩ := extractDependencies_relative_origin f.code
    (langOrDefault f.language) f.path d hd
  refine ⟨f, hf, hu, raw, hraw, ?_⟩
  rcases hcase with rfl | rfl
  · exact Or.inl hv
  · exact Or.inr hv

/-- Witness for C7, at the edge `/p/a.js → /p/b.js` of the two-file
fixture. -/
theorem claim7_theorem_witness :
    ∃ f ∈ [claim7FileA, claim7FileB], "/p/a.js" = normalizePath f.path ∧
      ∃ raw, strStartsWith raw "." = true ∧
        ("/p/b.js" = resolveDep [claim7FileA, claim7FileB]
            (resolvePath (dirname f.path) raw) ∨
         "/p/b.js" = resolveDep [claim7FileA, claim7FileB] raw) :=
  claim7_theorem [claim7FileA, claim7FileB] "/p/a.js" "/p/b.js" (by decide)

/-! ## Claim C8 -/

/-- A JS file whose structural parse failed (`ast = none`) but whose text
still contains a recognizable function export line. -/
def claim8Code : Code := { ast := none, jsLines := [{ expFuncName := some "f" }] }

/-- The file carrying `claim8Code`. -/
def claim8File : SFile :=
  { path := "/x.js", code := claim8Code, language := some "javascript" }

/-- C8: extraction degrades gracefully — when the structural parse fails the
JS/TS extractors return exactly the regex-fallback result instead of
aborting, and the outer report counts every input file in `filesAnalyzed`,
parseable or not. -/
theorem claim8_theorem (files : List SFile) (code : Code) (fp : String)
    (h : code.ast = none) :
    (Main.analyzeProject files).filesAnalyzed = files.length ∧
    extractExports code "javascript" = extractExportsRegex code.jsLines ∧
    extractExports code "typescript" = extractExportsRegex code.jsLines ∧
    extractImports code "javascript" = extractImportsRegex code.jsLines ∧
    extractDependencies code "javascript" fp = extractDependenciesRegex code.jsLines := by
  obtain ⟨ast, js, py, pall⟩ := code
  cases ast with
  | none => exact ⟨rfl, rfl, rfl, rfl, rfl⟩
  | some a => simp at h

/-- Witness for C8, at the unparseable file `claim8File`. -/
theorem claim8_theorem_witness :
    (Main.analyzeProject [claim8File]).filesAnalyzed = [claim8File].length ∧
    extractExports claim8Code "javascript" = extractExportsRegex claim8Code.jsLines ∧
    extractExports claim8Code "typescript" = extractExportsRegex claim8Code.jsLines ∧
    extractImports claim8Code "javascript" = extractImportsRegex claim8Code.jsLines ∧
    extractDependencies claim8Code "javascript" "/x.js"
      = extractDependenciesRegex claim8Code.jsLines :=
  claim8_theorem [claim8File] claim8Code "/x.js" rfl

/-! ## Claim C9 -/

/-- C9: the traversal is total and never re-enters a visited node — the final
visited list is duplicate-free yet covers every key of the graph — and a
self-edge does not derail it: the length-1 cycle is recorded as `[A, A]`. -/
theorem claim9_theorem (g : Graph) (A : String) (h : A ∈ adj g A) :
    (runDfs g).visited.Nodup ∧ (∀ k ∈ keysOf g, k ∈ (runDfs g).visited) ∧
    [A, A] ∈ detectCycles g := by
  obtain ⟨inv, _, _, hkeys⟩ := runDfs_facts g
  exact ⟨inv.visited_nodup, hkeys, detectCycles_self_loop h⟩

/-- Witness for C9, on the one-node self-loop graph. -/
theorem claim9_theorem_witness :
    (runDfs [("A", ["A"])]).visited.Nodup ∧
    (∀ k ∈ keysOf [("A", ["A"])], k ∈ (runDfs [("A", ["A"])]).visited) ∧
    ["A", "A"] ∈ detectCycles [("A", ["A"])] :=
  claim9_theorem [("A", ["A"])] "A" (by decide)

/-! ## Claim C10 -/

/-- C10: every circular-dependency issue is reported at line 1 of the first
file of its recorded cycle, never at the source line of the import statement
that closes the cycle. -/
theorem claim10_theorem (files : List SFile) :
    (circularDetect files).Forall (fun i =>
      i.line = 1 ∧ ∃ c, i.cycle = some c ∧ i.file = (c.head?).getD "") := by
  rw [List.forall_iff_forall_mem]
  intro i hi
  obtain ⟨_, _, _, hline, c, hc, hfile, _⟩ := circularDetect_mem hi
  exact ⟨hline, c, hc, hfile⟩

end CodeMaester
